import Mathlib

/-!
Shallow embedding of the conversation-tree core of `app.py` (the free
functions and Flask route bodies that the web application actually
executes): the node store, subtree operations (`copy_subtree` inside
`create_ghost_branch`, `remove_subtree`), the ghost-branch store with
`restore_ghost_branch` and `delete_ghost_branch`, the `edit_node` and
`chat` route bodies, and `build_conversation_context`.

Python dicts are embedded as association lists with dict semantics
(`mlookup` finds the first binding, `minsert` overwrites in place or
appends, `merase` deletes the key); recursive traversals whose Python
originals can diverge on cyclic input are embedded with an explicit fuel
parameter returning `Option` (`none` = the recursion does not finish
within the given depth), and divergence is the statement that every fuel
returns `none`.
-/

namespace App

/-- An edit-history record as appended by the `edit_node` route: the
timestamp, the `changes` dict (each field `None` when not provided), and
`ghost_created`. -/
structure EditEntry where
  timestamp : String
  changes_user_input : Option String
  changes_ai_response : Option String
  ghost_created : Option String
deriving Repr, DecidableEq

/-- A conversation node as stored in `tree_data["nodes"]`.  Python nodes
are dicts; fields read with `.get(..., default)` are embedded as
always-present fields with that default (`children` defaults to `[]`,
`parent_id` and `last_edited` to `None`). -/
structure Node where
  id : String
  user_input : String
  ai_response : String
  parent_id : Option String
  model_used : String
  timestamp : String
  children : List String
  edit_history : List EditEntry
  last_edited : Option String
deriving Repr, DecidableEq

/-- The node store: a Python dict from node id to node. -/
abbrev NMap := List (String × Node)

/-- A ghost branch as built by the free function `create_ghost_branch`. -/
structure Ghost where
  id : String
  original_node_id : String
  created_at : String
  reason : String
  nodes : NMap
  root_id : String
deriving Repr, DecidableEq

/-- The persisted tree document: `nodes`, `root_id`, `ghost_branches`. -/
structure Tree where
  nodes : NMap
  root_id : Option String
  ghost_branches : List (String × Ghost)
deriving Repr, DecidableEq

/-- Dict lookup: first binding of the key (Python dicts have unique keys,
so first = only). -/
def mlookup {α : Type} : List (String × α) → String → Option α
  | [], _ => none
  | (k, v) :: rest, k' => if k = k' then some v else mlookup rest k'

/-- Dict assignment `d[k] = v`: overwrite the binding in place if the key
exists, otherwise append at the end (Python insertion order). -/
def minsert {α : Type} : List (String × α) → String → α → List (String × α)
  | [], k, v => [(k, v)]
  | (k', v') :: rest, k, v =>
      if k' = k then (k, v) :: rest else (k', v') :: minsert rest k v

/-- Dict deletion `del d[k]`: remove the key's bindings. -/
def merase {α : Type} : List (String × α) → String → List (String × α)
  | [], _ => []
  | (k', v') :: rest, k =>
      if k' = k then merase rest k else (k', v') :: merase rest k

/-- The keys of an association list, in order, duplicates included. -/
def mkeys {α : Type} (m : List (String × α)) : List String := m.map Prod.fst

@[simp] theorem mlookup_minsert_self {α : Type} (m : List (String × α)) (k : String) (v : α) :
    mlookup (minsert m k v) k = some v := by
  induction m with
  | nil => simp [minsert, mlookup]
  | cons p rest ih =>
    obtain ⟨k', v'⟩ := p
    by_cases h : k' = k
    · simp [minsert, h, mlookup]
    · simp [minsert, h, mlookup, ih]

theorem mlookup_minsert_ne {α : Type} (m : List (String × α)) (k k' : String) (v : α)
    (h : k ≠ k') : mlookup (minsert m k v) k' = mlookup m k' := by
  induction m with
  | nil => simp [minsert, mlookup, h]
  | cons p rest ih =>
    obtain ⟨k₀, v₀⟩ := p
    by_cases h0 : k₀ = k
    · subst h0
      simp [minsert, mlookup, h]
    · by_cases h1 : k₀ = k'
      · subst h1
        simp [minsert, h0, mlookup, Ne.symm h]
      · simp [minsert, h0, mlookup, h1, ih]

@[simp] theorem mlookup_merase_self {α : Type} (m : List (String × α)) (k : String) :
    mlookup (merase m k) k = none := by
  induction m with
  | nil => simp [merase, mlookup]
  | cons p rest ih =>
    obtain ⟨k', v'⟩ := p
    by_cases h : k' = k
    · simp [merase, h, ih]
    · simp [merase, h, mlookup, ih]

theorem mlookup_merase_ne {α : Type} (m : List (String × α)) (k k' : String)
    (h : k ≠ k') : mlookup (merase m k) k' = mlookup m k' := by
  induction m with
  | nil => simp [merase]
  | cons p rest ih =>
    obtain ⟨k₀, v₀⟩ := p
    by_cases h0 : k₀ = k
    · subst h0
      simp [merase, ih, mlookup, h]
    · by_cases h1 : k₀ = k'
      · subst h1
        simp [merase, h0, mlookup, Ne.symm h, ih]
      · simp [merase, h0, mlookup, h1, ih]

theorem mlookup_mem {α : Type} {m : List (String × α)} {k : String} {v : α}
    (h : mlookup m k = some v) : (k, v) ∈ m := by
  induction m with
  | nil => simp [mlookup] at h
  | cons p rest ih =>
    obtain ⟨k', v'⟩ := p
    by_cases h0 : k' = k
    · subst h0
      simp [mlookup] at h
      subst h
      exact List.mem_cons_self _ _
    · simp [mlookup, h0] at h
      exact List.mem_cons_of_mem _ (ih h)

theorem mlookup_isSome_mem_mkeys {α : Type} {m : List (String × α)} {k : String} {v : α}
    (h : mlookup m k = some v) : k ∈ mkeys m := by
  have := mlookup_mem h
  exact List.mem_map_of_mem Prod.fst this

/-- Deleting a list of keys one after the other (`for desc_id in descendants:
if desc_id in tree_data["nodes"]: del ...`). -/
theorem mlookup_foldl_merase {α : Type} (ds : List String) (m : List (String × α)) (y : String) :
    mlookup (ds.foldl (fun acc d => merase acc d) m) y =
      if y ∈ ds then none else mlookup m y := by
  induction ds generalizing m with
  | nil => simp
  | cons d ds ih =>
    by_cases h : y = d
    · subst h
      simp [List.foldl_cons, ih, mlookup_merase_self]
    · by_cases h2 : y ∈ ds
      · simp [List.foldl_cons, ih, h2, h]
      · simp [List.foldl_cons, ih, h2, h, mlookup_merase_ne _ _ _ (Ne.symm h)]

/-- Fueled embedding of the nested function `copy_subtree(current_id,
visited)` inside the free `create_ghost_branch` (app.py:393-408): if the
node is already visited or absent, return; otherwise mark visited, copy
the node into the accumulator, and loop over the children recursing into
each (the fold threads the (visited, copied) state left to right and is
the `for child_id in ...` loop).  `none` means the recursion nests deeper
than the fuel, which for fuel larger than the number of unvisited keys
cannot happen: the visited set makes the traversal terminate on every
input. -/
def copyF (nodes : NMap) (fuel : Nat) (cur : String) (st : List String × NMap) :
    Option (List String × NMap) :=
  match fuel with
  | 0 => none
  | f + 1 =>
    if cur ∈ st.1 then some st
    else
      match mlookup nodes cur with
      | none => some st
      | some nd =>
        nd.children.foldl
          (fun mst c => match mst with
            | none => none
            | some s => copyF nodes f c s)
          (some (cur :: st.1, minsert st.2 cur nd))

/-- The child loop of `copy_subtree` as a function of the child list:
`copyF` applied to each child in turn, short-circuiting on fuel
exhaustion. -/
def copyListF (nodes : NMap) (fuel : Nat) (cs : List String) (st : List String × NMap) :
    Option (List String × NMap) :=
  cs.foldl
    (fun mst c => match mst with
      | none => none
      | some s => copyF nodes fuel c s)
    (some st)

theorem copyFold_none (nodes : NMap) (fuel : Nat) (cs : List String) :
    cs.foldl
      (fun mst c => match mst with
        | none => none
        | some s => copyF nodes fuel c s)
      none = none := by
  induction cs with
  | nil => rfl
  | cons c rest ih => exact ih

theorem copyF_zero (nodes : NMap) (cur : String) (st : List String × NMap) :
    copyF nodes 0 cur st = none := rfl

theorem copyF_succ (nodes : NMap) (f : Nat) (cur : String) (st : List String × NMap) :
    copyF nodes (f + 1) cur st =
      if cur ∈ st.1 then some st
      else
        match mlookup nodes cur with
        | none => some st
        | some nd => copyListF nodes f nd.children (cur :: st.1, minsert st.2 cur nd) := by
  rw [copyF]
  by_cases hmem : cur ∈ st.1
  · simp [hmem]
  · simp only [hmem, if_false]
    cases mlookup nodes cur with
    | none => rfl
    | some nd => rfl

theorem copyListF_nil (nodes : NMap) (fuel : Nat) (st : List String × NMap) :
    copyListF nodes fuel [] st = some st := rfl

theorem copyListF_cons (nodes : NMap) (fuel : Nat) (c : String) (rest : List String)
    (st : List String × NMap) :
    copyListF nodes fuel (c :: rest) st =
      match copyF nodes fuel c st with
      | none => none
      | some st1 => copyListF nodes fuel rest st1 := by
  have e1 : copyListF nodes fuel (c :: rest) st =
      List.foldl
        (fun mst c' => match mst with
          | none => none
          | some s => copyF nodes fuel c' s)
        (copyF nodes fuel c st) rest := rfl
  rw [e1]
  cases h : copyF nodes fuel c st with
  | none => exact copyFold_none nodes fuel rest
  | some st1 => rfl

/-- Fueled embedding of the nested `collect_descendants(current_id)` inside
the free `remove_subtree` (app.py:426-430): if the node is present, then for
each child append the child to `descendants` and recurse into it (the fold
is the `for child_id in ...` loop: append, then recurse).  There is no
visited set, so on cyclic `children` links the Python recursion never
finishes; here that shows up as `none` for every fuel. -/
def collectF (nodes : NMap) (fuel : Nat) (cur : String) (acc : List String) :
    Option (List String) :=
  match fuel with
  | 0 => none
  | f + 1 =>
    match mlookup nodes cur with
    | none => some acc
    | some nd =>
      nd.children.foldl
        (fun macc c => match macc with
          | none => none
          | some a => collectF nodes f c (a ++ [c]))
        (some acc)

/-- The child loop of `collect_descendants` as a function of the child
list: append each child then recurse into it, left to right. -/
def collectListF (nodes : NMap) (fuel : Nat) (cs : List String) (acc : List String) :
    Option (List String) :=
  cs.foldl
    (fun macc c => match macc with
      | none => none
      | some a => collectF nodes fuel c (a ++ [c]))
    (some acc)

theorem collectFold_none (nodes : NMap) (fuel : Nat) (cs : List String) :
    cs.foldl
      (fun macc c => match macc with
        | none => none
        | some a => collectF nodes fuel c (a ++ [c]))
      none = none := by
  induction cs with
  | nil => rfl
  | cons c rest ih => exact ih

theorem collectF_zero (nodes : NMap) (cur : String) (acc : List String) :
    collectF nodes 0 cur acc = none := rfl

theorem collectF_succ (nodes : NMap) (f : Nat) (cur : String) (acc : List String) :
    collectF nodes (f + 1) cur acc =
      match mlookup nodes cur with
      | none => some acc
      | some nd => collectListF nodes f nd.children acc := by
  rw [collectF]
  cases mlookup nodes cur with
  | none => rfl
  | some nd => rfl

theorem collectListF_nil (nodes : NMap) (fuel : Nat) (acc : List String) :
    collectListF nodes fuel [] acc = some acc := rfl

theorem collectListF_cons (nodes : NMap) (fuel : Nat) (c : String) (rest : List String)
    (acc : List String) :
    collectListF nodes fuel (c :: rest) acc =
      match collectF nodes fuel c (acc ++ [c]) with
      | none => none
      | some acc1 => collectListF nodes fuel rest acc1 := by
  have e1 : collectListF nodes fuel (c :: rest) acc =
      List.foldl
        (fun macc c' => match macc with
          | none => none
          | some a => collectF nodes fuel c' (a ++ [c']))
        (collectF nodes fuel c (acc ++ [c])) rest := rfl
  rw [e1]
  cases h : collectF nodes fuel c (acc ++ [c]) with
  | none => exact collectFold_none nodes fuel rest
  | some acc1 => rfl

/-- Reachability along `children` links through nodes present in the store,
avoiding the set `V`: `RA nodes V a x` holds when there is a path
`a = x0 → x1 → ... → xk = x` with every node on the path present in
`nodes`, no node of the path in `V`, and each step going to a child of the
previous node.  With `V = []` this is plain reachability (`Reaches`). -/
inductive RA (nodes : NMap) (V : List String) (a : String) : String → Prop where
  | refl (nd : Node) (ha : mlookup nodes a = some nd) (hav : a ∉ V) : RA nodes V a a
  | step (b c : String) (ndb ndc : Node) (hab : RA nodes V a b)
      (hb : mlookup nodes b = some ndb) (hc : c ∈ ndb.children)
      (hcl : mlookup nodes c = some ndc) (hcv : c ∉ V) : RA nodes V a c

/-- Plain reachability from `a` to `x` along `children` links through
present nodes ("x is a descendant of a", reflexively). -/
def Reaches (nodes : NMap) (a x : String) : Prop := RA nodes [] a x

theorem RA_start {nodes : NMap} {V : List String} {a x : String} (h : RA nodes V a x) :
    (∃ nd, mlookup nodes a = some nd) ∧ a ∉ V := by
  induction h with
  | refl nd ha hav => exact ⟨⟨nd, ha⟩, hav⟩
  | step b c ndb ndc hab hb hc hcl hcv ih => exact ih

theorem RA_end {nodes : NMap} {V : List String} {a x : String} (h : RA nodes V a x) :
    (∃ nd, mlookup nodes x = some nd) ∧ x ∉ V := by
  cases h with
  | refl nd ha hav => exact ⟨⟨nd, ha⟩, hav⟩
  | step b c ndb ndc hab hb hc hcl hcv => exact ⟨⟨ndc, hcl⟩, hcv⟩

theorem RA_anti {nodes : NMap} {V V' : List String} {a x : String}
    (hsub : ∀ y, y ∈ V → y ∈ V') (h : RA nodes V' a x) : RA nodes V a x := by
  induction h with
  | refl nd ha hav => exact RA.refl nd ha (fun hm => hav (hsub _ hm))
  | step b c ndb ndc hab hb hc hcl hcv ih =>
      exact RA.step b c ndb ndc ih hb hc hcl (fun hm => hcv (hsub _ hm))

theorem RA_trans {nodes : NMap} {V : List String} {a b x : String}
    (h1 : RA nodes V a b) (h2 : RA nodes V b x) : RA nodes V a x := by
  induction h2 with
  | refl nd ha hav => exact h1
  | step b2 c2 ndb ndc hab hb hc hcl hcv ih =>
      exact RA.step b2 c2 ndb ndc ih hb hc hcl hcv

theorem RA_prepend {nodes : NMap} {V : List String} {a c x : String} {nd : Node}
    (ha : mlookup nodes a = some nd) (hav : a ∉ V) (hc : c ∈ nd.children)
    (h : RA nodes (a :: V) c x) : RA nodes V a x := by
  induction h with
  | refl ndc hcl hcv =>
      exact RA.step a c nd ndc (RA.refl nd ha hav) ha hc hcl
        (fun hm => hcv (List.mem_cons_of_mem a hm))
  | step b y ndb ndy hab hb hcy hcly hcvy ih =>
      exact RA.step b y ndb ndy ih hb hcy hcly
        (fun hm => hcvy (List.mem_cons_of_mem a hm))

theorem RA_uncons {nodes : NMap} {V : List String} {a x : String} (h : RA nodes V a x) :
    x ≠ a →
    ∃ c nda, mlookup nodes a = some nda ∧ c ∈ nda.children ∧ RA nodes (a :: V) c x := by
  induction h with
  | refl nd ha hav => intro hne; exact absurd rfl hne
  | step b c ndb ndc hab hb hc hcl hcv ih =>
      intro hne
      have hcv' : c ∉ a :: V := by
        intro hm
        rcases List.mem_cons.mp hm with h1 | h1
        · exact hne h1
        · exact hcv h1
      by_cases hba : b = a
      · subst hba
        exact ⟨c, ndb, hb, hc, RA.refl ndc hcl hcv'⟩
      · obtain ⟨c0, nda, ha0, hc0, hrest⟩ := ih hba
        exact ⟨c0, nda, ha0, hc0, RA.step b c ndb ndc hrest hb hc hcl hcv'⟩

/-- Length-indexed reachability: a path of exactly `n` child steps through
present nodes. -/
inductive ReachesN (nodes : NMap) (a : String) : Nat → String → Prop where
  | refl (nd : Node) (ha : mlookup nodes a = some nd) : ReachesN nodes a 0 a
  | step (n : Nat) (b c : String) (ndb ndc : Node) (h : ReachesN nodes a n b)
      (hb : mlookup nodes b = some ndb) (hc : c ∈ ndb.children)
      (hcl : mlookup nodes c = some ndc) : ReachesN nodes a (n + 1) c

theorem ReachesN_start {nodes : NMap} {a : String} {n : Nat} {x : String}
    (h : ReachesN nodes a n x) : ∃ nd, mlookup nodes a = some nd := by
  induction h with
  | refl nd ha => exact ⟨nd, ha⟩
  | step n b c ndb ndc h hb hc hcl ih => exact ih

theorem ReachesN_zero {nodes : NMap} {a x : String} (h : ReachesN nodes a 0 x) : x = a := by
  cases h
  rfl

theorem ReachesN_trans {nodes : NMap} {a b : String} {m : Nat} (h1 : ReachesN nodes a m b) :
    ∀ {n : Nat} {x : String}, ReachesN nodes b n x → ReachesN nodes a (m + n) x := by
  intro n x h2
  induction h2 with
  | refl nd ha => exact h1
  | step n' b2 c2 ndb ndc h hb hc hcl ih =>
      exact ReachesN.step (m + n') b2 c2 ndb ndc ih hb hc hcl

theorem ReachesN_decomp {nodes : NMap} {a : String} {k : Nat} {x : String}
    (h : ReachesN nodes a k x) :
    ∀ n, k = n + 1 →
      ∃ nda b, mlookup nodes a = some nda ∧ b ∈ nda.children ∧ ReachesN nodes b n x := by
  induction h with
  | refl nd ha => intro n hn; exact absurd hn.symm (Nat.succ_ne_zero n)
  | step n' b c ndb ndc h hb hc hcl ih =>
      intro n hn
      have hn' : n' = n := Nat.succ_injective hn
      subst hn'
      by_cases hz : n' = 0
      · subst hz
        have hba : b = a := ReachesN_zero h
        subst hba
        exact ⟨ndb, c, hb, hc, ReachesN.refl ndc hcl⟩
      · obtain ⟨m, rfl⟩ := Nat.exists_eq_succ_of_ne_zero hz
        obtain ⟨nda, b1, ha1, hb1, hrest⟩ := ih m rfl
        exact ⟨nda, b1, ha1, hb1, ReachesN.step m b c ndb ndc hrest hb hc hcl⟩

theorem RA_of_ReachesN {nodes : NMap} {a : String} {n : Nat} {x : String}
    (h : ReachesN nodes a n x) : RA nodes [] a x := by
  induction h with
  | refl nd ha => exact RA.refl nd ha (List.not_mem_nil a)
  | step n b c ndb ndc h hb hc hcl ih =>
      exact RA.step b c ndb ndc ih hb hc hcl (List.not_mem_nil c)

theorem ReachesN_of_RA {nodes : NMap} {a x : String} (h : RA nodes [] a x) :
    ∃ n, ReachesN nodes a n x := by
  induction h with
  | refl nd ha hav => exact ⟨0, ReachesN.refl nd ha⟩
  | step b c ndb ndc hab hb hc hcl hcv ih =>
      obtain ⟨n, hn⟩ := ih
      exact ⟨n + 1, ReachesN.step n b c ndb ndc hn hb hc hcl⟩

/-- The number of keys of the store not yet visited: the measure that makes
the visited-set traversal of `copy_subtree` terminate. -/
def unvisitedCount (nodes : NMap) (V : List String) : Nat :=
  ((mkeys nodes).toFinset.filter (fun k => k ∉ V)).card

theorem unvisitedCount_lt {nodes : NMap} {V : List String} {cur : String}
    (hk : cur ∈ mkeys nodes) (hv : cur ∉ V) :
    unvisitedCount nodes (cur :: V) < unvisitedCount nodes V := by
  apply Finset.card_lt_card
  constructor
  · intro a ha
    rcases Finset.mem_filter.mp ha with ⟨ha1, ha2⟩
    exact Finset.mem_filter.mpr ⟨ha1, fun hmem => ha2 (List.mem_cons_of_mem cur hmem)⟩
  · intro hsup
    have hcur : cur ∈ (mkeys nodes).toFinset.filter (fun k => k ∉ V) :=
      Finset.mem_filter.mpr ⟨List.mem_toFinset.mpr hk, hv⟩
    have := Finset.mem_filter.mp (hsup hcur)
    exact this.2 (List.mem_cons_self cur V)

theorem unvisitedCount_le {nodes : NMap} {V V' : List String}
    (h : ∀ y, y ∈ V → y ∈ V') :
    unvisitedCount nodes V' ≤ unvisitedCount nodes V := by
  apply Finset.card_le_card
  intro a ha
  rcases Finset.mem_filter.mp ha with ⟨ha1, ha2⟩
  exact Finset.mem_filter.mpr ⟨ha1, fun hmem => ha2 (h a hmem)⟩

theorem copyListF_some_of_le_aux (nodes : NMap) (f : Nat)
    (ihf : ∀ cur st, unvisitedCount nodes st.1 + 1 ≤ f →
      ∃ st', copyF nodes f cur st = some st' ∧ ∀ y, y ∈ st.1 → y ∈ st'.1) :
    ∀ (cs : List String) (st : List String × NMap), unvisitedCount nodes st.1 + 1 ≤ f →
      ∃ st', copyListF nodes f cs st = some st' ∧ ∀ y, y ∈ st.1 → y ∈ st'.1 := by
  intro cs
  induction cs with
  | nil => exact fun st _ => ⟨st, copyListF_nil nodes f st, fun y hy => hy⟩
  | cons c rest ihl =>
    intro st hle
    obtain ⟨st1, h1, hs1⟩ := ihf c st hle
    have hle1 : unvisitedCount nodes st1.1 + 1 ≤ f :=
      le_trans (Nat.add_le_add_right (unvisitedCount_le hs1) 1) hle
    obtain ⟨st', h2, hs2⟩ := ihl st1 hle1
    refine ⟨st', ?_, fun y hy => hs2 y (hs1 y hy)⟩
    rw [copyListF_cons, h1]
    exact h2

/-- Termination of `copy_subtree`: since every productive recursive call
adds a fresh key to the visited set, recursion depth is bounded by the
number of unvisited keys, so fuel beyond that bound always suffices. -/
theorem copyF_some_of_le :
    ∀ (fuel : Nat) (nodes : NMap) (cur : String) (st : List String × NMap),
      unvisitedCount nodes st.1 + 1 ≤ fuel →
      ∃ st', copyF nodes fuel cur st = some st' ∧ ∀ y, y ∈ st.1 → y ∈ st'.1 := by
  intro fuel
  induction fuel with
  | zero => intro nodes cur st h; exact absurd h (by omega)
  | succ f ih =>
    intro nodes cur st hle
    by_cases hmem : cur ∈ st.1
    · exact ⟨st, by rw [copyF_succ]; simp [hmem], fun y hy => hy⟩
    · cases hnd : mlookup nodes cur with
      | none => exact ⟨st, by rw [copyF_succ]; simp [hmem, hnd], fun y hy => hy⟩
      | some nd =>
        have hkey : cur ∈ mkeys nodes := mlookup_isSome_mem_mkeys hnd
        have hU : unvisitedCount nodes (cur :: st.1) + 1 ≤ f := by
          have h1 := unvisitedCount_lt (V := st.1) hkey hmem
          omega
        obtain ⟨st', hrun, hsub⟩ := copyListF_some_of_le_aux nodes f
          (fun cur' st'' hle'' => ih nodes cur' st'' hle'')
          nd.children (cur :: st.1, minsert st.2 cur nd) hU
        refine ⟨st', ?_, fun y hy => hsub y (List.mem_cons_of_mem cur hy)⟩
        rw [copyF_succ]
        simp only [hmem, if_neg, hnd]
        simpa using hrun

theorem RA_absorb {nodes : NMap} {V V1 : List String} {c : String}
    (hchar : ∀ y, y ∈ V1 ↔ (y ∈ V ∨ RA nodes V c y)) :
    ∀ {a x : String}, RA nodes V a x → x ∈ V1 ∨ RA nodes V1 a x := by
  intro a x h
  induction h with
  | refl nd ha hav =>
      by_cases hm : a ∈ V1
      · exact Or.inl hm
      · exact Or.inr (RA.refl nd ha hm)
  | step b x2 ndb ndx hab hb hcx hclx hcvx ih =>
      rcases ih with hbV1 | hra
      · rcases (hchar b).mp hbV1 with hbV | hbra
        · exact absurd hbV (RA_end hab).2
        · exact Or.inl ((hchar x2).mpr (Or.inr (RA.step b x2 ndb ndx hbra hb hcx hclx hcvx)))
      · by_cases hm : x2 ∈ V1
        · exact Or.inl hm
        · exact Or.inr (RA.step b x2 ndb ndx hra hb hcx hclx hm)

theorem copyListF_visited_char_aux (nodes : NMap) (f : Nat)
    (ihf : ∀ cur st st', copyF nodes f cur st = some st' →
      ∀ y, y ∈ st'.1 ↔ (y ∈ st.1 ∨ RA nodes st.1 cur y)) :
    ∀ (cs : List String) (st st' : List String × NMap),
      copyListF nodes f cs st = some st' →
      ∀ y, y ∈ st'.1 ↔ (y ∈ st.1 ∨ ∃ c, c ∈ cs ∧ RA nodes st.1 c y) := by
  intro cs
  induction cs with
  | nil =>
    intro st st' h y
    rw [copyListF_nil] at h
    cases h
    simp
  | cons c rest ihl =>
    intro st st' h y
    rw [copyListF_cons] at h
    cases hc1 : copyF nodes f c st with
    | none => rw [hc1] at h; cases h
    | some st1 =>
      rw [hc1] at h
      have hchar1 := ihf c st st1 hc1
      have hsub01 : ∀ z, z ∈ st.1 → z ∈ st1.1 := fun z hz => (hchar1 z).mpr (Or.inl hz)
      have hchar2 := ihl st1 st' h
      constructor
      · intro hy'
        rcases (hchar2 y).mp hy' with h1 | ⟨c', hc', hra⟩
        · rcases (hchar1 y).mp h1 with h2 | h2
          · exact Or.inl h2
          · exact Or.inr ⟨c, List.mem_cons_self c rest, h2⟩
        · exact Or.inr ⟨c', List.mem_cons_of_mem c hc', RA_anti hsub01 hra⟩
      · intro hy'
        rcases hy' with h1 | ⟨c'', hmem, hra⟩
        · exact (hchar2 y).mpr (Or.inl (hsub01 y h1))
        · rcases List.mem_cons.mp hmem with rfl | hmem'
          · exact (hchar2 y).mpr (Or.inl ((hchar1 y).mpr (Or.inr hra)))
          · rcases RA_absorb (fun z => hchar1 z) hra with hyv | hra'
            · exact (hchar2 y).mpr (Or.inl hyv)
            · exact (hchar2 y).mpr (Or.inr ⟨c'', hmem', hra'⟩)

/-- What `copy_subtree` visits: exactly the input visited set plus
everything reachable from the start along present children, avoiding the
input visited set. -/
theorem copyF_visited_char :
    ∀ (fuel : Nat) (nodes : NMap) (cur : String) (st st' : List String × NMap),
      copyF nodes fuel cur st = some st' →
      ∀ y, y ∈ st'.1 ↔ (y ∈ st.1 ∨ RA nodes st.1 cur y) := by
  intro fuel
  induction fuel with
  | zero => intro nodes cur st st' h; rw [copyF_zero] at h; cases h
  | succ f ih =>
    intro nodes cur st st' h y
    rw [copyF_succ] at h
    by_cases hmem : cur ∈ st.1
    · simp only [hmem, if_true] at h
      cases h
      constructor
      · exact Or.inl
      · intro hy
        rcases hy with h1 | hra
        · exact h1
        · exact absurd hmem (RA_start hra).2
    · simp only [hmem, if_false] at h
      cases hnd : mlookup nodes cur with
      | none =>
        rw [hnd] at h
        cases h
        constructor
        · exact Or.inl
        · intro hy
          rcases hy with h1 | hra
          · exact h1
          · obtain ⟨⟨nd0, hnd0⟩, _⟩ := RA_start hra
            rw [hnd] at hnd0
            cases hnd0
      | some nd =>
        rw [hnd] at h
        have hchar := copyListF_visited_char_aux nodes f
          (fun cur' st1 st2 hrun => ih nodes cur' st1 st2 hrun)
          nd.children (cur :: st.1, minsert st.2 cur nd) st' h
        constructor
        · intro hy
          rcases (hchar y).mp hy with h1 | ⟨c, hcmem, hra⟩
          · rcases List.mem_cons.mp h1 with rfl | h2
            · exact Or.inr (RA.refl nd hnd hmem)
            · exact Or.inl h2
          · exact Or.inr (RA_prepend hnd hmem hcmem hra)
        · intro hy
          rcases hy with h1 | hra
          · exact (hchar y).mpr (Or.inl (List.mem_cons_of_mem cur h1))
          · by_cases hyc : y = cur
            · subst hyc
              exact (hchar y).mpr (Or.inl (List.mem_cons_self y st.1))
            · obtain ⟨c, nda, ha0, hc0, hrest⟩ := RA_uncons hra hyc
              rw [hnd] at ha0
              cases ha0
              exact (hchar y).mpr (Or.inr ⟨c, hc0, hrest⟩)

/-- The copied-nodes accumulator of `copy_subtree` holds exactly the visited
keys, each bound to a (deep, hence value-equal) copy of its live record. -/
def AccInv (nodes : NMap) (st : List String × NMap) : Prop :=
  (∀ y, y ∈ st.1 → mlookup st.2 y = mlookup nodes y) ∧
  (∀ y, y ∉ st.1 → mlookup st.2 y = none)

theorem copyListF_accinv_aux (nodes : NMap) (f : Nat)
    (ihf : ∀ cur st st', copyF nodes f cur st = some st' → AccInv nodes st → AccInv nodes st') :
    ∀ (cs : List String) (st st' : List String × NMap),
      copyListF nodes f cs st = some st' → AccInv nodes st → AccInv nodes st' := by
  intro cs
  induction cs with
  | nil =>
    intro st st' h hinv
    rw [copyListF_nil] at h
    cases h
    exact hinv
  | cons c rest ihl =>
    intro st st' h hinv
    rw [copyListF_cons] at h
    cases hc1 : copyF nodes f c st with
    | none => rw [hc1] at h; cases h
    | some st1 =>
      rw [hc1] at h
      exact ihl st1 st' h (ihf c st st1 hc1 hinv)

theorem copyF_accinv :
    ∀ (fuel : Nat) (nodes : NMap) (cur : String) (st st' : List String × NMap),
      copyF nodes fuel cur st = some st' → AccInv nodes st → AccInv nodes st' := by
  intro fuel
  induction fuel with
  | zero => intro nodes cur st st' h; rw [copyF_zero] at h; cases h
  | succ f ih =>
    intro nodes cur st st' h hinv
    rw [copyF_succ] at h
    by_cases hmem : cur ∈ st.1
    · simp only [hmem, if_true] at h
      cases h
      exact hinv
    · simp only [hmem, if_false] at h
      cases hnd : mlookup nodes cur with
      | none =>
        rw [hnd] at h
        cases h
        exact hinv
      | some nd =>
        rw [hnd] at h
        refine copyListF_accinv_aux nodes f
          (fun cur' st1 st2 hrun => ih nodes cur' st1 st2 hrun)
          nd.children (cur :: st.1, minsert st.2 cur nd) st' h ⟨?_, ?_⟩
        · intro y hy
          rcases List.mem_cons.mp hy with rfl | hy'
          · simpa using hnd.symm
          · have hync : y ≠ cur := fun hcon => hmem (hcon ▸ hy')
            rw [show ((cur :: st.1, minsert st.2 cur nd) : List String × NMap).2
                  = minsert st.2 cur nd from rfl]
            rw [mlookup_minsert_ne _ _ _ _ (Ne.symm hync)]
            exact hinv.1 y hy'
        · intro y hy
          have hync : y ≠ cur := fun hcon => hy (hcon ▸ List.mem_cons_self cur st.1)
          have hyn : y ∉ st.1 := fun hcon => hy (List.mem_cons_of_mem cur hcon)
          rw [show ((cur :: st.1, minsert st.2 cur nd) : List String × NMap).2
                = minsert st.2 cur nd from rfl]
          rw [mlookup_minsert_ne _ _ _ _ (Ne.symm hync)]
          exact hinv.2 y hyn

/-- `y` is appended to `descendants` by `collect_descendants(x)`: `y` is a
child of some node reachable from `x` (the child itself need not be
present in the store — `collect_descendants` appends before checking). -/
def DescFrom (nodes : NMap) (x y : String) : Prop :=
  ∃ b nd, RA nodes [] x b ∧ mlookup nodes b = some nd ∧ y ∈ nd.children

theorem collectListF_mem_char_aux (nodes : NMap) (f : Nat)
    (ihf : ∀ cur acc r, collectF nodes f cur acc = some r →
      ∀ y, y ∈ r ↔ (y ∈ acc ∨ DescFrom nodes cur y)) :
    ∀ (cs : List String) (acc r : List String),
      collectListF nodes f cs acc = some r →
      ∀ y, y ∈ r ↔ (y ∈ acc ∨ ∃ c, c ∈ cs ∧ (y = c ∨ DescFrom nodes c y)) := by
  intro cs
  induction cs with
  | nil =>
    intro acc r h y
    rw [collectListF_nil] at h
    cases h
    simp
  | cons c rest ihl =>
    intro acc r h y
    rw [collectListF_cons] at h
    cases hc1 : collectF nodes f c (acc ++ [c]) with
    | none => rw [hc1] at h; cases h
    | some acc1 =>
      rw [hc1] at h
      have hchar1 := ihf c (acc ++ [c]) acc1 hc1
      have hchar2 := ihl acc1 r h
      rw [hchar2 y, hchar1 y]
      constructor
      · intro hy
        rcases hy with (h1 | h1) | ⟨c', hc', h1⟩
        · rcases List.mem_append.mp h1 with h2 | h2
          · exact Or.inl h2
          · have hyc : y = c := by simpa using h2
            exact Or.inr ⟨c, List.mem_cons_self c rest, Or.inl hyc⟩
        · exact Or.inr ⟨c, List.mem_cons_self c rest, Or.inr h1⟩
        · exact Or.inr ⟨c', List.mem_cons_of_mem c hc', h1⟩
      · intro hy
        rcases hy with h1 | ⟨c'', hmem, h1⟩
        · exact Or.inl (Or.inl (List.mem_append.mpr (Or.inl h1)))
        · rcases List.mem_cons.mp hmem with rfl | hmem'
          · rcases h1 with h1 | h1
            · exact Or.inl (Or.inl (List.mem_append.mpr (Or.inr (by simp [h1]))))
            · exact Or.inl (Or.inr h1)
          · exact Or.inr ⟨c'', hmem', h1⟩

/-- What `collect_descendants` appends: exactly the incoming accumulator
plus the children of every node reachable from the start. -/
theorem collectF_mem_char :
    ∀ (fuel : Nat) (nodes : NMap) (cur : String) (acc r : List String),
      collectF nodes fuel cur acc = some r →
      ∀ y, y ∈ r ↔ (y ∈ acc ∨ DescFrom nodes cur y) := by
  intro fuel
  induction fuel with
  | zero => intro nodes cur acc r h; rw [collectF_zero] at h; cases h
  | succ f ih =>
    intro nodes cur acc r h y
    rw [collectF_succ] at h
    cases hnd : mlookup nodes cur with
    | none =>
      rw [hnd] at h
      cases h
      constructor
      · exact Or.inl
      · intro hy
        rcases hy with h1 | ⟨b, nd, hra, _, _⟩
        · exact h1
        · obtain ⟨⟨nd0, hnd0⟩, _⟩ := RA_start hra
          rw [hnd] at hnd0
          cases hnd0
    | some nd =>
      rw [hnd] at h
      have hchar := collectListF_mem_char_aux nodes f
        (fun cur' acc' r' hrun => ih nodes cur' acc' r' hrun)
        nd.children acc r h
      rw [hchar y]
      constructor
      · intro hy
        rcases hy with h1 | ⟨c, hcmem, h1 | h1⟩
        · exact Or.inl h1
        · subst h1
          exact Or.inr ⟨cur, nd, RA.refl nd hnd (List.not_mem_nil cur), hnd, hcmem⟩
        · obtain ⟨b, ndb, hra, hb, hyb⟩ := h1
          obtain ⟨⟨ndc, hndc⟩, _⟩ := RA_start hra
          have hcur_c : RA nodes [] cur c :=
            RA.step cur c nd ndc (RA.refl nd hnd (List.not_mem_nil cur)) hnd hcmem hndc
              (List.not_mem_nil c)
          exact Or.inr ⟨b, ndb, RA_trans hcur_c hra, hb, hyb⟩
      · intro hy
        rcases hy with h1 | ⟨b, ndb, hra, hb, hyb⟩
        · exact Or.inl h1
        · by_cases hbc : b = cur
          · subst hbc
            rw [hnd] at hb
            cases hb
            exact Or.inr ⟨y, hyb, Or.inl rfl⟩
          · obtain ⟨c, nda, ha0, hc0, hrest⟩ := RA_uncons hra hbc
            rw [hnd] at ha0
            cases ha0
            have hra' : RA nodes [] c b :=
              RA_anti (fun z hz => absurd hz (List.not_mem_nil z)) hrest
            exact Or.inr ⟨c, hc0, Or.inr ⟨b, ndb, hra', hb, hyb⟩⟩

theorem collectListF_member_some (nodes : NMap) (f : Nat) :
    ∀ (cs : List String) (acc r : List String),
      collectListF nodes f cs acc = some r →
      ∀ c, c ∈ cs → ∃ acc1 r1, collectF nodes f c acc1 = some r1 := by
  intro cs
  induction cs with
  | nil => intro acc r h c hc; cases hc
  | cons c0 rest ihl =>
    intro acc r h c hc
    rw [collectListF_cons] at h
    cases hc1 : collectF nodes f c0 (acc ++ [c0]) with
    | none => rw [hc1] at h; cases h
    | some acc1 =>
      rw [hc1] at h
      rcases List.mem_cons.mp hc with rfl | hc'
      · exact ⟨acc ++ [c], acc1, hc1⟩
      · exact ihl acc1 r h c hc'

/-- Bounded-depth fact about `collect_descendants`: if the recursion
finishes within the fuel, every reachability path from the start is
strictly shorter than the fuel. -/
theorem collectF_path_lt :
    ∀ (fuel : Nat) (nodes : NMap) (cur : String) (acc r : List String),
      collectF nodes fuel cur acc = some r →
      ∀ n b, ReachesN nodes cur n b → n < fuel := by
  intro fuel
  induction fuel with
  | zero => intro nodes cur acc r h; rw [collectF_zero] at h; cases h
  | succ f ih =>
    intro nodes cur acc r h n b hr
    rw [collectF_succ] at h
    cases hnd : mlookup nodes cur with
    | none =>
      obtain ⟨nd0, hnd0⟩ := ReachesN_start hr
      rw [hnd] at hnd0
      cases hnd0
    | some nd =>
      rw [hnd] at h
      by_cases hz : n = 0
      · omega
      · obtain ⟨m, rfl⟩ := Nat.exists_eq_succ_of_ne_zero hz
        obtain ⟨nda, b1, ha1, hb1, hrest⟩ := ReachesN_decomp hr m rfl
        rw [hnd] at ha1
        cases ha1
        obtain ⟨acc1, r1, hc1⟩ := collectListF_member_some nodes f nd.children acc r h b1 hb1
        have := ih nodes b1 acc1 r1 hc1 m b hrest
        omega

/-- If `collect_descendants(x)` finishes, then `x` cannot be a child of a
node reachable from `x` (else pumping the cycle would exceed every fuel). -/
theorem collect_no_self {nodes : NMap} {fuel : Nat} {x : String} {r : List String}
    (h : collectF nodes fuel x [] = some r) : ¬ DescFrom nodes x x := by
  rintro ⟨b, ndb, hra, hb, hxb⟩
  obtain ⟨n, hn⟩ := ReachesN_of_RA hra
  obtain ⟨⟨ndx, hx⟩, _⟩ := RA_start hra
  have hcyc : ReachesN nodes x (n + 1) x := ReachesN.step n b x ndb ndx hn hb hxb hx
  have hpump : ∀ j, ReachesN nodes x (j * (n + 1)) x := by
    intro j
    induction j with
    | zero => rw [Nat.zero_mul]; exact ReachesN.refl ndx hx
    | succ j ihj =>
      rw [Nat.succ_mul]
      exact ReachesN_trans ihj hcyc
  have hlt := collectF_path_lt fuel nodes x [] r h (fuel * (n + 1)) x (hpump fuel)
  have hge : fuel ≤ fuel * (n + 1) := by
    calc fuel = fuel * 1 := (Nat.mul_one fuel).symm
    _ ≤ fuel * (n + 1) := Nat.mul_le_mul_left fuel (by omega)
  omega

/-- Number of distinct keys of the store; `numKeys + 1` fuel always
suffices for the visited-set traversal (`copyF_some_of_le`). -/
def numKeys (m : NMap) : Nat := (mkeys m).dedup.length

/-- The complete `copy_subtree(node_id)` call of the free
`create_ghost_branch` (app.py:410): run the visited-set deep copy from
`node_id` with empty visited set and empty accumulator.  Since the
traversal provably finishes within `numKeys + 1` fuel on every input, the
fuel is instantiated with that bound (the `none` default is dead code). -/
def copy_subtree (nodes : NMap) (node_id : String) : NMap :=
  match copyF nodes (numKeys nodes + 1) node_id ([], []) with
  | some st => st.2
  | none => []

theorem unvisitedCount_nil_le (nodes : NMap) :
    unvisitedCount nodes [] ≤ numKeys nodes := by
  unfold unvisitedCount numKeys
  have hfil : ((mkeys nodes).toFinset.filter (fun k => k ∉ ([] : List String)))
      = (mkeys nodes).toFinset := by
    apply Finset.filter_true_of_mem
    intro x _
    exact List.not_mem_nil x
  rw [hfil, List.card_toFinset]

/-- Full characterization of `copy_subtree`: it returns a mapping whose
keys are exactly the nodes reachable from `node_id` (through present
nodes along `children` links, `node_id` itself included when present),
each bound to the value it has in the live store at copy time. -/
theorem copy_subtree_spec (nodes : NMap) (node_id : String) :
    ∃ st, copyF nodes (numKeys nodes + 1) node_id ([], []) = some st ∧
      copy_subtree nodes node_id = st.2 ∧
      (∀ y, y ∈ st.1 ↔ RA nodes [] node_id y) ∧
      (∀ y, y ∈ st.1 → mlookup st.2 y = mlookup nodes y) ∧
      (∀ y, y ∉ st.1 → mlookup st.2 y = none) := by
  have hle : unvisitedCount nodes (([], ([] : NMap)) : List String × NMap).1 + 1
      ≤ numKeys nodes + 1 := by
    have := unvisitedCount_nil_le nodes
    simpa using Nat.add_le_add_right this 1
  obtain ⟨st, hrun, _⟩ :=
    copyF_some_of_le (numKeys nodes + 1) nodes node_id ([], []) hle
  have hinv : AccInv nodes st := by
    refine copyF_accinv (numKeys nodes + 1) nodes node_id ([], []) st hrun ⟨?_, ?_⟩
    · intro y hy
      exact absurd hy (List.not_mem_nil y)
    · intro y _
      rfl
  refine ⟨st, hrun, ?_, ?_, hinv.1, hinv.2⟩
  · unfold copy_subtree
    rw [hrun]
  · intro y
    have := copyF_visited_char (numKeys nodes + 1) nodes node_id ([], []) st hrun y
    simpa using this

/-- The free function `create_ghost_branch(tree_data, node_id, reason)`
(app.py:370-416).  The generated identifier and the `utcnow` timestamp
are nondeterministic inputs of the Python code and are passed as
parameters; `None` is returned when `node_id` is absent.  On success the
ghost record (anchor copied too, by `copy_subtree` starting at the
anchor) is stored under the fresh id and the new tree is returned with
the ghost id. -/
def ghost_record (t : Tree) (node_id reason ghost_id created_at : String) : Ghost :=
  { id := ghost_id, original_node_id := node_id, created_at := created_at,
    reason := reason, nodes := copy_subtree t.nodes node_id, root_id := node_id }

def create_ghost_branch (t : Tree) (node_id : String)
    (reason ghost_id created_at : String) : Option (String × Tree) :=
  match mlookup t.nodes node_id with
  | none => none
  | some _ =>
    let g : Ghost := ghost_record t node_id reason ghost_id created_at
    some (ghost_id, { t with ghost_branches := minsert t.ghost_branches ghost_id g })

/-- The free function `remove_subtree(tree_data, node_id, preserve_root)`
(app.py:418-449): collect all descendants (no visited set — hence the
fuel; `none` = the Python recursion does not finish), delete them, then
either clear the root's `children` (`preserve_root`) or delete the root
itself and drop it from its parent's `children` list. -/
def remove_subtree (nodes : NMap) (node_id : String) (preserve_root : Bool)
    (fuel : Nat) : Option NMap :=
  match mlookup nodes node_id with
  | none => some nodes
  | some _ =>
    match collectF nodes fuel node_id [] with
    | none => none
    | some descendants =>
      let nodes1 := descendants.foldl (fun acc d => merase acc d) nodes
      if preserve_root then
        match mlookup nodes1 node_id with
        | some nd => some (minsert nodes1 node_id { nd with children := [] })
        | none => some nodes1
      else
        match mlookup nodes1 node_id with
        | none => some nodes1
        | some nd =>
          match nd.parent_id with
          | none => some (merase nodes1 node_id)
          | some p =>
            if p = "" then some (merase nodes1 node_id)
            else
              match mlookup nodes1 p with
              | none => some (merase nodes1 node_id)
              | some pnd =>
                some (merase
                  (if node_id ∈ pnd.children then
                    minsert nodes1 p { pnd with children := pnd.children.erase node_id }
                  else nodes1) node_id)

/-- Failure modes of the `restore_ghost_branch` route (app.py:792-833):
404 when the ghost id is unknown, 400 when the anchor node no longer
exists, and a 500 `KeyError` when the ghost's own `nodes` map lacks the
anchor record (the route then aborts before `save_tree_memory`, so no
state change is persisted — embedded as an error carrying no tree). -/
inductive RestoreError where
  | notFound
  | invalidState
  | internalError
deriving Repr, DecidableEq

/-- The node-insertion loop of the `restore_ghost_branch` route
(app.py:808-811): copy every ghost node except the anchor back into the
live store, unconditionally overwriting ("Don't overwrite the edited
original"). -/
def restore_nodes (t : Tree) (gb : Ghost) : NMap :=
  gb.nodes.foldl
    (fun m p => if p.1 ≠ gb.original_node_id then minsert m p.1 p.2 else m) t.nodes

/-- The `restore_ghost_branch` route body (app.py:792-833): after the 404
and anchor checks, insert the ghost's non-anchor nodes, set the anchor's
`children` to the child list recorded in the ghost's copy of the anchor,
and delete the ghost record. -/
def restore_ghost_branch (t : Tree) (ghost_id : String) : Except RestoreError Tree :=
  match mlookup t.ghost_branches ghost_id with
  | none => Except.error RestoreError.notFound
  | some gb =>
    match mlookup t.nodes gb.original_node_id with
    | none => Except.error RestoreError.invalidState
    | some _ =>
      match mlookup gb.nodes gb.original_node_id with
      | none => Except.error RestoreError.internalError
      | some ghost_root =>
        match mlookup (restore_nodes t gb) gb.original_node_id with
        | none => Except.error RestoreError.internalError
        | some original_node =>
          Except.ok { t with
            nodes := minsert (restore_nodes t gb) gb.original_node_id
              { original_node with children := ghost_root.children },
            ghost_branches := merase t.ghost_branches ghost_id }

/-- The `delete_ghost_branch` route body (app.py:835-859): 404 (`none`)
when absent, otherwise remove the ghost record; the node store is
untouched. -/
def delete_ghost_branch (t : Tree) (ghost_id : String) : Option Tree :=
  match mlookup t.ghost_branches ghost_id with
  | none => none
  | some _ => some { t with ghost_branches := merase t.ghost_branches ghost_id }

/-- Python `str.strip()`: drop leading and trailing whitespace characters
(embedded over the character list so that it evaluates by kernel
reduction). -/
def pyStrip (str : String) : String :=
  ⟨((str.data.dropWhile Char.isWhitespace).reverse.dropWhile Char.isWhitespace).reverse⟩

/-- Validation failures of the `edit_node` route: missing content (400,
checked before the tree is even loaded) and unknown node id (404). -/
inductive EditError where
  | emptyBoth
  | notFound
deriving Repr, DecidableEq

/-- The content-and-history update at the tail of the `edit_node` route
(app.py:719-735): overwrite only nonempty stripped fields, set
`last_edited`, and append the edit-history record. -/
def edit_apply_content (node : Node) (nui nai : String) (g : Option String)
    (le hs : String) : Node :=
  let node1 := if nui ≠ "" then { node with user_input := nui } else node
  let node2 := if nai ≠ "" then { node1 with ai_response := nai } else node1
  { node2 with
    last_edited := some le,
    edit_history := node2.edit_history ++ [{
      timestamp := hs,
      changes_user_input := if nui ≠ "" then some nui else none,
      changes_ai_response := if nai ≠ "" then some nai else none,
      ghost_created := g }] }

/-- The tail of the `edit_node` route after the optional ghost creation
(app.py:712-748): detach the children when the node has any (the fuel is
`remove_subtree`'s), then apply the content update to the stored record —
the Python `node` variable aliases the stored dict, so when
`remove_subtree` kept and cleared it the update lands on the cleared
record, and when the node is (abnormally) gone the update mutates only
the dangling alias. -/
def edit_finish (t1 : Tree) (node : Node) (node_id : String) (g : Option String)
    (nui nai le hs : String) (has_children : Bool) (fuel : Nat) :
    Option (Except EditError (Tree × Option String)) :=
  match (if has_children then remove_subtree t1.nodes node_id true fuel
         else some t1.nodes) with
  | none => none
  | some nodes2 =>
    some (Except.ok ({ t1 with nodes :=
      (if (mlookup nodes2 node_id).isSome then
        minsert nodes2 node_id
          (edit_apply_content ((mlookup nodes2 node_id).getD node) nui nai g le hs)
      else nodes2) }, g))

/-- The `edit_node` route body (app.py:679-752).  `user_input` and
`ai_response` arrive as raw strings (absent fields default to `""`) and
are stripped; `ghost_id`, `ghost_created_at`, `last_edited_ts` and
`history_ts` stand for the route's uuid and `utcnow()` calls.  The outer
`Option` is the fuel of `remove_subtree`'s unbounded recursion; the
Python `node` variable aliases the stored dict, so content updates after
`remove_subtree` are applied to the (children-cleared) stored record. -/
def edit_node (t : Tree) (node_id : String) (user_input ai_response : String)
    (create_ghost : Bool) (ghost_id ghost_created_at last_edited_ts history_ts : String)
    (fuel : Nat) : Option (Except EditError (Tree × Option String)) :=
  let new_user_input := pyStrip user_input
  let new_ai_response := pyStrip ai_response
  if new_user_input = "" ∧ new_ai_response = "" then
    some (Except.error EditError.emptyBoth)
  else
    match mlookup t.nodes node_id with
    | none => some (Except.error EditError.notFound)
    | some node =>
      let has_children : Bool := decide (0 < node.children.length)
      match (if create_ghost && has_children then
               create_ghost_branch t node_id
                 "Node edited - preserving original branch" ghost_id ghost_created_at
             else none) with
      | some (g, t1) =>
        edit_finish t1 node node_id (some g) new_user_input new_ai_response
          last_edited_ts history_ts has_children fuel
      | none =>
        edit_finish t node node_id none new_user_input new_ai_response
          last_edited_ts history_ts has_children fuel

/-- The tree-update portion of the `chat` route (app.py:580-602): insert
the freshly generated node (uuid and timestamp passed as parameters, the
generated `ai_response` comes from the external model), then either
append it to its parent's `children` (when `parent_id` is truthy and
present in the store — checked after the insertion) or overwrite
`root_id` with the new id. -/
def chat_update (t : Tree) (parent_id : Option String)
    (new_node_id user_input ai_response model_used timestamp : String) : Tree :=
  let new_node : Node :=
    { id := new_node_id, user_input := user_input, ai_response := ai_response,
      parent_id := parent_id, model_used := model_used, timestamp := timestamp,
      children := [], edit_history := [], last_edited := none }
  let nodes1 := minsert t.nodes new_node_id new_node
  match parent_id with
  | none => { t with nodes := nodes1, root_id := some new_node_id }
  | some p =>
    if p = "" then { t with nodes := nodes1, root_id := some new_node_id }
    else
      match mlookup nodes1 p with
      | none => { t with nodes := nodes1, root_id := some new_node_id }
      | some pnd =>
        { t with nodes := minsert nodes1 p { pnd with children := pnd.children ++ [new_node_id] } }

/-- The `while current_id:` walk of `build_conversation_context`
(app.py:350-356): follow `parent_id` links collecting nodes in visit
order, stopping at a falsy (`None` or `""`) id or a missing node; fueled
because corrupted `parent_id` links could cycle. -/
def walkPath (nodes : NMap) (fuel : Nat) (cur : Option String) (path : List Node) :
    Option (List Node) :=
  match cur with
  | none => some path
  | some cid =>
    if cid = "" then some path
    else
      match fuel with
      | 0 => none
      | f + 1 =>
        match mlookup nodes cid with
        | none => some path
        | some nd => walkPath nodes f nd.parent_id (path ++ [nd])

/-- The context-line builder of `build_conversation_context`
(app.py:361-366): one `Human:` line per nonempty `user_input`, one
`Assistant:` line per nonempty `ai_response`, in path order. -/
def contextParts (path : List Node) : List String :=
  path.foldl (fun parts nd =>
    parts ++ (if nd.user_input ≠ "" then ["Human: " ++ nd.user_input] else [])
          ++ (if nd.ai_response ≠ "" then ["Assistant: " ++ nd.ai_response] else [])) []

/-- The free function `build_conversation_context(tree_data, node_id)`
(app.py:341-368): empty string for a falsy or unknown id, otherwise walk
to the root, reverse to root-first order, build the context lines and
join the last ten of them (`context_parts[-10:]`) with newlines. -/
def build_conversation_context (t : Tree) (node_id : Option String) (fuel : Nat) :
    Option String :=
  match node_id with
  | none => some ""
  | some nid =>
    if nid = "" then some ""
    else
      match mlookup t.nodes nid with
      | none => some ""
      | some _ =>
        match walkPath t.nodes fuel (some nid) [] with
        | none => none
        | some path =>
          let parts := contextParts path.reverse
          some (String.intercalate "\n" (parts.drop (parts.length - 10)))

/-- Decidable form of the §3 tree invariant "if a node lists `c` as a
child and `c` is present, then `c.parent_id` points back at it": used as
a hypothesis where a claim presupposes a well-formed tree. -/
def parent_coherent (nodes : NMap) : Bool :=
  nodes.all (fun p =>
    p.2.children.all (fun c =>
      match mlookup nodes c with
      | none => true
      | some ndc => ndc.parent_id == some p.1))

/-- Decidable form of the §3 tree invariant "`children` contains each id
exactly once". -/
def children_nodup (nodes : NMap) : Bool :=
  nodes.all (fun p => decide p.2.children.Nodup)

theorem parent_coherent_spec {nodes : NMap} (h : parent_coherent nodes = true) :
    ∀ y ndy c ndc, mlookup nodes y = some ndy → c ∈ ndy.children →
      mlookup nodes c = some ndc → ndc.parent_id = some y := by
  intro y ndy c ndc hy hc hcc
  have hmem := mlookup_mem hy
  have h1 := List.all_eq_true.mp h _ hmem
  have h2 := List.all_eq_true.mp h1 c hc
  rw [hcc] at h2
  exact eq_of_beq h2

theorem children_nodup_spec {nodes : NMap} (h : children_nodup nodes = true) :
    ∀ y ndy, mlookup nodes y = some ndy → ndy.children.Nodup := by
  intro y ndy hy
  exact of_decide_eq_true (List.all_eq_true.mp h _ (mlookup_mem hy))

theorem collect_not_self_mem {nodes : NMap} {fuel : Nat} {x : String} {ds : List String}
    (h : collectF nodes fuel x [] = some ds) : x ∉ ds := by
  intro hx
  have hchar := collectF_mem_char fuel nodes x [] ds h x
  have hd : DescFrom nodes x x := by
    rcases hchar.mp hx with h1 | h1
    · exact absurd h1 (List.not_mem_nil x)
    · exact h1
  exact collect_no_self h hd

theorem collect_mem_iff {nodes : NMap} {fuel : Nat} {x : String} {ds : List String}
    (h : collectF nodes fuel x [] = some ds) :
    ∀ y, y ∈ ds ↔ DescFrom nodes x y := by
  intro y
  have := collectF_mem_char fuel nodes x [] ds h y
  simpa using this

theorem strict_reach_desc {nodes : NMap} {x y : String}
    (hra : RA nodes [] x y) (hne : y ≠ x) : DescFrom nodes x y := by
  cases hra with
  | refl nd ha hav => exact absurd rfl hne
  | step b c ndb ndc hab hb hc hcl hcv => exact ⟨b, ndb, hab, hb, hc⟩

theorem desc_present_reach {nodes : NMap} {x y : String} {ndy : Node}
    (hd : DescFrom nodes x y) (hyl : mlookup nodes y = some ndy) :
    RA nodes [] x y := by
  obtain ⟨b, ndb, hra, hb, hyb⟩ := hd
  exact RA.step b y ndb ndy hra hb hyb hyl (List.not_mem_nil y)

/-- What `remove_subtree(..., preserve_root=True)` produces: exactly the
store with every collected descendant deleted and the root's `children`
cleared in place. -/
theorem remove_subtree_true_spec {nodes : NMap} {x : String} {nd : Node} {fuel : Nat}
    {m1 : NMap} (hx : mlookup nodes x = some nd)
    (h : remove_subtree nodes x true fuel = some m1) :
    ∃ ds, collectF nodes fuel x [] = some ds ∧ x ∉ ds ∧
      (∀ y, y ∈ ds ↔ DescFrom nodes x y) ∧
      m1 = minsert (ds.foldl (fun acc d => merase acc d) nodes) x
        { nd with children := [] } := by
  unfold remove_subtree at h
  rw [hx] at h
  cases hcol : collectF nodes fuel x [] with
  | none => rw [hcol] at h; cases h
  | some ds =>
    rw [hcol] at h
    have hxn : x ∉ ds := collect_not_self_mem hcol
    have hx1 : mlookup (ds.foldl (fun acc d => merase acc d) nodes) x = some nd := by
      rw [mlookup_foldl_merase]
      simp [hxn, hx]
    simp only [if_true] at h
    rw [hx1] at h
    cases h
    exact ⟨ds, rfl, hxn, collect_mem_iff hcol, rfl⟩

/-- What `remove_subtree(..., preserve_root=False)` produces: descendants
deleted, then the root deleted, preceded (when the root's `parent_id` is
truthy, present after the descendant deletion, and lists the root) by
removing the root from its parent's `children`. -/
theorem remove_subtree_false_spec {nodes : NMap} {x : String} {nd : Node} {fuel : Nat}
    {m2 : NMap} (hx : mlookup nodes x = some nd)
    (h : remove_subtree nodes x false fuel = some m2) :
    ∃ ds, collectF nodes fuel x [] = some ds ∧ x ∉ ds ∧
      (∀ y, y ∈ ds ↔ DescFrom nodes x y) ∧
      (((nd.parent_id = none ∨ nd.parent_id = some "" ∨
          ∃ p, nd.parent_id = some p ∧ p ≠ "" ∧
            mlookup (ds.foldl (fun acc d => merase acc d) nodes) p = none) ∧
        m2 = merase (ds.foldl (fun acc d => merase acc d) nodes) x) ∨
       (∃ p pnd, nd.parent_id = some p ∧ p ≠ "" ∧
          mlookup (ds.foldl (fun acc d => merase acc d) nodes) p = some pnd ∧
          m2 = merase (if x ∈ pnd.children then
              minsert (ds.foldl (fun acc d => merase acc d) nodes) p
                { pnd with children := pnd.children.erase x }
            else ds.foldl (fun acc d => merase acc d) nodes) x)) := by
  unfold remove_subtree at h
  rw [hx] at h
  cases hcol : collectF nodes fuel x [] with
  | none => rw [hcol] at h; cases h
  | some ds =>
    rw [hcol] at h
    have hxn : x ∉ ds := collect_not_self_mem hcol
    have hx1 : mlookup (ds.foldl (fun acc d => merase acc d) nodes) x = some nd := by
      rw [mlookup_foldl_merase]
      simp [hxn, hx]
    refine ⟨ds, rfl, hxn, collect_mem_iff hcol, ?_⟩
    simp only [Bool.false_eq_true, if_false] at h
    rw [hx1] at h
    have h2 : (match nd.parent_id with
        | none => some (merase (ds.foldl (fun acc d => merase acc d) nodes) x)
        | some p =>
          if p = "" then some (merase (ds.foldl (fun acc d => merase acc d) nodes) x)
          else
            match mlookup (ds.foldl (fun acc d => merase acc d) nodes) p with
            | none => some (merase (ds.foldl (fun acc d => merase acc d) nodes) x)
            | some pnd =>
              some (merase (if x ∈ pnd.children then
                  minsert (ds.foldl (fun acc d => merase acc d) nodes) p
                    { pnd with children := pnd.children.erase x }
                else ds.foldl (fun acc d => merase acc d) nodes) x)) = some m2 := h
    cases hpar : nd.parent_id with
    | none =>
      rw [hpar] at h2
      cases h2
      exact Or.inl ⟨Or.inl rfl, rfl⟩
    | some p =>
      rw [hpar] at h2
      have h3 : (if p = "" then some (merase (ds.foldl (fun acc d => merase acc d) nodes) x)
          else
            match mlookup (ds.foldl (fun acc d => merase acc d) nodes) p with
            | none => some (merase (ds.foldl (fun acc d => merase acc d) nodes) x)
            | some pnd =>
              some (merase (if x ∈ pnd.children then
                  minsert (ds.foldl (fun acc d => merase acc d) nodes) p
                    { pnd with children := pnd.children.erase x }
                else ds.foldl (fun acc d => merase acc d) nodes) x)) = some m2 := h2
      by_cases hpe : p = ""
      · subst hpe
        rw [if_pos rfl] at h3
        cases h3
        exact Or.inl ⟨Or.inr (Or.inl rfl), rfl⟩
      · rw [if_neg hpe] at h3
        cases hp1 : mlookup (ds.foldl (fun acc d => merase acc d) nodes) p with
        | none =>
          rw [hp1] at h3
          cases h3
          exact Or.inl ⟨Or.inr (Or.inr ⟨p, rfl, hpe, hp1⟩), rfl⟩
        | some pnd =>
          rw [hp1] at h3
          cases h3
          exact Or.inr ⟨p, pnd, rfl, hpe, hp1, rfl⟩

theorem foldlIns_anchor {α : Type} (anchor : String) (l : List (String × α))
    (m : List (String × α)) :
    mlookup (l.foldl (fun acc q => if q.1 ≠ anchor then minsert acc q.1 q.2 else acc) m)
      anchor = mlookup m anchor := by
  induction l generalizing m with
  | nil => rfl
  | cons q rest ih =>
    obtain ⟨k, v⟩ := q
    rw [List.foldl_cons]
    by_cases hk : k = anchor
    · simp only [hk, ne_eq, not_true_eq_false, if_false]
      exact ih m
    · simp only [ne_eq, hk, not_false_eq_true, if_true]
      rw [ih, mlookup_minsert_ne _ _ _ _ hk]

theorem foldlIns_not_mem {α : Type} (anchor : String) (l : List (String × α))
    (m : List (String × α)) (y : String) (hy : y ∉ mkeys l) :
    mlookup (l.foldl (fun acc q => if q.1 ≠ anchor then minsert acc q.1 q.2 else acc) m)
      y = mlookup m y := by
  induction l generalizing m with
  | nil => rfl
  | cons q rest ih =>
    obtain ⟨k, v⟩ := q
    have hyk : k ≠ y := by
      intro hcon
      exact hy (by simp [mkeys, hcon])
    have hytail : y ∉ mkeys rest := by
      intro hcon
      exact hy (by simp [mkeys] at hcon ⊢; exact Or.inr hcon)
    rw [List.foldl_cons]
    by_cases hk : k = anchor
    · simp only [hk, ne_eq, not_true_eq_false, if_false]
      exact ih m hytail
    · simp only [ne_eq, hk, not_false_eq_true, if_true]
      rw [ih _ hytail, mlookup_minsert_ne _ _ _ _ hyk]

theorem foldlIns_mem {α : Type} (anchor : String) {l : List (String × α)}
    (hnd : (mkeys l).Nodup) {y : String} {v : α} (hyv : mlookup l y = some v)
    (hyne : y ≠ anchor) (m : List (String × α)) :
    mlookup (l.foldl (fun acc q => if q.1 ≠ anchor then minsert acc q.1 q.2 else acc) m)
      y = some v := by
  induction l generalizing m with
  | nil => cases hyv
  | cons q rest ih =>
    obtain ⟨k, w⟩ := q
    have hnd2 : k ∉ mkeys rest ∧ (mkeys rest).Nodup := by
      have h0 : mkeys ((k, w) :: rest) = k :: mkeys rest := rfl
      rw [h0] at hnd
      exact List.nodup_cons.mp hnd
    rw [List.foldl_cons]
    by_cases hk : k = y
    · subst hk
      have hv : w = v := by
        simpa [mlookup] using hyv
      subst hv
      simp only [ne_eq, hyne, not_false_eq_true, if_true]
      rw [foldlIns_not_mem anchor rest _ k hnd2.1]
      exact mlookup_minsert_self m k w
    · have hyv' : mlookup rest y = some v := by
        simpa [mlookup, hk] using hyv
      by_cases hka : k = anchor
      · simp only [hka, ne_eq, not_true_eq_false, if_false]
        exact ih hnd2.2 hyv' m
      · simp only [ne_eq, hka, not_false_eq_true, if_true]
        exact ih hnd2.2 hyv' (minsert m k w)

theorem create_ghost_branch_eq {t : Tree} {node_id : String} {nd : Node}
    (hx : mlookup t.nodes node_id = some nd) (reason gid ca : String) :
    create_ghost_branch t node_id reason gid ca =
      some (gid,
        { t with
          ghost_branches :=
            minsert t.ghost_branches gid (ghost_record t node_id reason gid ca) }) := by
  unfold create_ghost_branch
  rw [hx]

theorem edit_finish_ok {t1 : Tree} {node : Node} {node_id : String} {g : Option String}
    {nui nai le hs : String} {has_children : Bool} {fuel : Nat}
    {r : Except EditError (Tree × Option String)}
    (h : edit_finish t1 node node_id g nui nai le hs has_children fuel = some r) :
    ∃ nodes2, (if has_children then remove_subtree t1.nodes node_id true fuel
               else some t1.nodes) = some nodes2 ∧
      r = Except.ok ({ t1 with nodes :=
        (if (mlookup nodes2 node_id).isSome then
          minsert nodes2 node_id
            (edit_apply_content ((mlookup nodes2 node_id).getD node) nui nai g le hs)
        else nodes2) }, g) := by
  unfold edit_finish at h
  cases hrm : (if has_children then remove_subtree t1.nodes node_id true fuel
               else some t1.nodes) with
  | none => rw [hrm] at h; cases h
  | some nodes2 =>
    rw [hrm] at h
    cases h
    exact ⟨nodes2, rfl, rfl⟩

theorem edit_finish_ne_error {t1 : Tree} {node : Node} {node_id : String}
    {g : Option String} {nui nai le hs : String} {has_children : Bool} {fuel : Nat}
    {e : EditError} :
    edit_finish t1 node node_id g nui nai le hs has_children fuel
      ≠ some (Except.error e) := by
  intro h
  obtain ⟨nodes2, hrm, hr⟩ := edit_finish_ok h
  cases hr

/-- Shape of a successful `edit_node` run: the content check passed, the
node exists, a ghost was taken exactly when requested on a node with
children, the children were detached when present, and the final store is
the detached store with the content-updated record written back. -/
theorem edit_node_ok_spec {t : Tree} {node_id ui ai : String} {cg : Bool}
    {gid gca le hs : String} {fuel : Nat} {t' : Tree} {og : Option String}
    (h : edit_node t node_id ui ai cg gid gca le hs fuel = some (Except.ok (t', og))) :
    ¬(pyStrip ui = "" ∧ pyStrip ai = "") ∧
    ∃ node, mlookup t.nodes node_id = some node ∧
    ∃ t1, ((cg = true ∧ node.children ≠ [] ∧ og = some gid ∧
            t1 = { t with
                    ghost_branches :=
                      minsert t.ghost_branches gid
                        (ghost_record t node_id
                          "Node edited - preserving original branch" gid gca) }) ∨
           (¬(cg = true ∧ node.children ≠ []) ∧ og = none ∧ t1 = t)) ∧
      ∃ nodes2,
        (if decide (0 < node.children.length) then
          remove_subtree t1.nodes node_id true fuel
        else some t1.nodes) = some nodes2 ∧
        t' = { t1 with nodes :=
          (if (mlookup nodes2 node_id).isSome then
            minsert nodes2 node_id
              (edit_apply_content ((mlookup nodes2 node_id).getD node)
                (pyStrip ui) (pyStrip ai) og le hs)
          else nodes2) } := by
  unfold edit_node at h
  by_cases hempty : pyStrip ui = "" ∧ pyStrip ai = ""
  · rw [if_pos hempty] at h
    simp at h
  · rw [if_neg hempty] at h
    refine ⟨hempty, ?_⟩
    cases hx : mlookup t.nodes node_id with
    | none =>
      rw [hx] at h
      simp at h
    | some node =>
      rw [hx] at h
      refine ⟨node, rfl, ?_⟩
      have h1 : (match (if cg && decide (0 < node.children.length) then
            create_ghost_branch t node_id "Node edited - preserving original branch" gid gca
          else none) with
        | some (g, t1) =>
          edit_finish t1 node node_id (some g) (pyStrip ui) (pyStrip ai) le hs
            (decide (0 < node.children.length)) fuel
        | none =>
          edit_finish t node node_id none (pyStrip ui) (pyStrip ai) le hs
            (decide (0 < node.children.length)) fuel) = some (Except.ok (t', og)) := h
      by_cases hcg : (cg && decide (0 < node.children.length)) = true
      · rw [if_pos hcg] at h1
        rw [create_ghost_branch_eq hx "Node edited - preserving original branch" gid gca] at h1
        have hcg' : cg = true ∧ decide (0 < node.children.length) = true := by
          simpa using hcg
        have hch : node.children ≠ [] := by
          intro hcon
          have := of_decide_eq_true hcg'.2
          rw [hcon] at this
          simp at this
        have h2 : edit_finish
            { t with
              ghost_branches :=
                minsert t.ghost_branches gid
                  (ghost_record t node_id
                    "Node edited - preserving original branch" gid gca) }
            node node_id (some gid) (pyStrip ui) (pyStrip ai) le hs
            (decide (0 < node.children.length)) fuel = some (Except.ok (t', og)) := h1
        obtain ⟨nodes2, hrm, hr⟩ := edit_finish_ok h2
        rw [Except.ok.injEq, Prod.mk.injEq] at hr
        obtain ⟨hrt, hrg⟩ := hr
        subst hrt
        subst hrg
        exact ⟨_, Or.inl ⟨hcg'.1, hch, rfl, rfl⟩, nodes2, hrm, rfl⟩
      · rw [if_neg hcg] at h1
        have h2 : edit_finish t node node_id none (pyStrip ui) (pyStrip ai) le hs
            (decide (0 < node.children.length)) fuel = some (Except.ok (t', og)) := h1
        obtain ⟨nodes2, hrm, hr⟩ := edit_finish_ok h2
        rw [Except.ok.injEq, Prod.mk.injEq] at hr
        obtain ⟨hrt, hrg⟩ := hr
        subst hrt
        subst hrg
        refine ⟨t, Or.inr ⟨?_, rfl, rfl⟩, nodes2, hrm, rfl⟩
        intro hcon
        apply hcg
        rw [Bool.and_eq_true]
        exact ⟨hcon.1, decide_eq_true (List.length_pos.mpr hcon.2)⟩

/-- The `emptyBoth` rejection of `edit_node` fires exactly when both
stripped fields are empty (it is checked before anything is read or
written). -/
theorem edit_node_emptyBoth_iff (t : Tree) (node_id ui ai : String) (cg : Bool)
    (gid gca le hs : String) (fuel : Nat) :
    edit_node t node_id ui ai cg gid gca le hs fuel
        = some (Except.error EditError.emptyBoth) ↔
      (pyStrip ui = "" ∧ pyStrip ai = "") := by
  constructor
  · intro h
    by_cases hempty : pyStrip ui = "" ∧ pyStrip ai = ""
    · exact hempty
    · exfalso
      unfold edit_node at h
      rw [if_neg hempty] at h
      cases hx : mlookup t.nodes node_id with
      | none =>
        rw [hx] at h
        simp at h
      | some node =>
        rw [hx] at h
        have h1 : (match (if cg && decide (0 < node.children.length) then
              create_ghost_branch t node_id "Node edited - preserving original branch" gid gca
            else none) with
          | some (g, t1) =>
            edit_finish t1 node node_id (some g) (pyStrip ui) (pyStrip ai) le hs
              (decide (0 < node.children.length)) fuel
          | none =>
            edit_finish t node node_id none (pyStrip ui) (pyStrip ai) le hs
              (decide (0 < node.children.length)) fuel)
            = some (Except.error EditError.emptyBoth) := h
        by_cases hcg : (cg && decide (0 < node.children.length)) = true
        · rw [if_pos hcg] at h1
          rw [create_ghost_branch_eq hx "Node edited - preserving original branch" gid gca] at h1
          have h2 : edit_finish
              { t with
                ghost_branches :=
                  minsert t.ghost_branches gid
                    (ghost_record t node_id
                      "Node edited - preserving original branch" gid gca) }
              node node_id (some gid) (pyStrip ui) (pyStrip ai) le hs
              (decide (0 < node.children.length)) fuel
              = some (Except.error EditError.emptyBoth) := h1
          exact edit_finish_ne_error h2
        · rw [if_neg hcg] at h1
          have h2 : edit_finish t node node_id none (pyStrip ui) (pyStrip ai) le hs
              (decide (0 < node.children.length)) fuel
              = some (Except.error EditError.emptyBoth) := h1
          exact edit_finish_ne_error h2
  · intro hempty
    simp [edit_node, hempty.1, hempty.2]

theorem restore_nodes_anchor (t : Tree) (gb : Ghost) :
    mlookup (restore_nodes t gb) gb.original_node_id
      = mlookup t.nodes gb.original_node_id := by
  unfold restore_nodes
  exact foldlIns_anchor gb.original_node_id gb.nodes t.nodes

/-- Full characterization of `restore_ghost_branch`'s four outcomes. -/
theorem restore_cases (t : Tree) (gid : String) :
    (mlookup t.ghost_branches gid = none ∧
      restore_ghost_branch t gid = Except.error RestoreError.notFound) ∨
    (∃ g, mlookup t.ghost_branches gid = some g ∧
      mlookup t.nodes g.original_node_id = none ∧
      restore_ghost_branch t gid = Except.error RestoreError.invalidState) ∨
    (∃ g anchorNd, mlookup t.ghost_branches gid = some g ∧
      mlookup t.nodes g.original_node_id = some anchorNd ∧
      mlookup g.nodes g.original_node_id = none ∧
      restore_ghost_branch t gid = Except.error RestoreError.internalError) ∨
    (∃ g anchorNd gRoot, mlookup t.ghost_branches gid = some g ∧
      mlookup t.nodes g.original_node_id = some anchorNd ∧
      mlookup g.nodes g.original_node_id = some gRoot ∧
      restore_ghost_branch t gid = Except.ok { t with
        nodes := minsert (restore_nodes t g) g.original_node_id
          { anchorNd with children := gRoot.children },
        ghost_branches := merase t.ghost_branches gid }) := by
  unfold restore_ghost_branch
  cases hg : mlookup t.ghost_branches gid with
  | none => exact Or.inl ⟨rfl, rfl⟩
  | some g =>
    cases ha : mlookup t.nodes g.original_node_id with
    | none =>
      refine Or.inr (Or.inl ⟨g, rfl, ha, ?_⟩)
      change (match mlookup t.nodes g.original_node_id with
        | none => Except.error RestoreError.invalidState
        | some _ =>
          match mlookup g.nodes g.original_node_id with
          | none => Except.error RestoreError.internalError
          | some ghost_root =>
            match mlookup (restore_nodes t g) g.original_node_id with
            | none => Except.error RestoreError.internalError
            | some original_node =>
              Except.ok { t with
                nodes := minsert (restore_nodes t g) g.original_node_id
                  { original_node with children := ghost_root.children },
                ghost_branches := merase t.ghost_branches gid }) = _
      rw [ha]
    | some anchorNd =>
      cases hgr : mlookup g.nodes g.original_node_id with
      | none =>
        refine Or.inr (Or.inr (Or.inl ⟨g, anchorNd, rfl, ha, hgr, ?_⟩))
        change (match mlookup t.nodes g.original_node_id with
          | none => Except.error RestoreError.invalidState
          | some _ =>
            match mlookup g.nodes g.original_node_id with
            | none => Except.error RestoreError.internalError
            | some ghost_root =>
              match mlookup (restore_nodes t g) g.original_node_id with
              | none => Except.error RestoreError.internalError
              | some original_node =>
                Except.ok { t with
                  nodes := minsert (restore_nodes t g) g.original_node_id
                    { original_node with children := ghost_root.children },
                  ghost_branches := merase t.ghost_branches gid }) = _
        rw [ha]
        change (match mlookup g.nodes g.original_node_id with
          | none => Except.error RestoreError.internalError
          | some ghost_root =>
            match mlookup (restore_nodes t g) g.original_node_id with
            | none => Except.error RestoreError.internalError
            | some original_node =>
              Except.ok { t with
                nodes := minsert (restore_nodes t g) g.original_node_id
                  { original_node with children := ghost_root.children },
                ghost_branches := merase t.ghost_branches gid }) = _
        rw [hgr]
      | some gRoot =>
        refine Or.inr (Or.inr (Or.inr ⟨g, anchorNd, gRoot, rfl, ha, hgr, ?_⟩))
        have ha1 : mlookup (restore_nodes t g) g.original_node_id = some anchorNd := by
          rw [restore_nodes_anchor, ha]
        change (match mlookup t.nodes g.original_node_id with
          | none => Except.error RestoreError.invalidState
          | some _ =>
            match mlookup g.nodes g.original_node_id with
            | none => Except.error RestoreError.internalError
            | some ghost_root =>
              match mlookup (restore_nodes t g) g.original_node_id with
              | none => Except.error RestoreError.internalError
              | some original_node =>
                Except.ok { t with
                  nodes := minsert (restore_nodes t g) g.original_node_id
                    { original_node with children := ghost_root.children },
                  ghost_branches := merase t.ghost_branches gid }) = _
        rw [ha]
        change (match mlookup g.nodes g.original_node_id with
          | none => Except.error RestoreError.internalError
          | some ghost_root =>
            match mlookup (restore_nodes t g) g.original_node_id with
            | none => Except.error RestoreError.internalError
            | some original_node =>
              Except.ok { t with
                nodes := minsert (restore_nodes t g) g.original_node_id
                  { original_node with children := ghost_root.children },
                ghost_branches := merase t.ghost_branches gid }) = _
        rw [hgr]
        change (match mlookup (restore_nodes t g) g.original_node_id with
          | none => Except.error RestoreError.internalError
          | some original_node =>
            Except.ok { t with
              nodes := minsert (restore_nodes t g) g.original_node_id
                { original_node with children := gRoot.children },
              ghost_branches := merase t.ghost_branches gid }) = _
        rw [ha1]

/-- Builder for concrete node records used in the example trees below. -/
def exampleNode (id ui ai : String) (parent : Option String) (cs : List String) : Node :=
  { id := id, user_input := ui, ai_response := ai, parent_id := parent,
    model_used := "m1", timestamp := "t0", children := cs, edit_history := [],
    last_edited := none }

def c1NodeA : Node := exampleNode "a" "ua" "ra" none ["b"]

def c1NodeB : Node := exampleNode "b" "ub" "rb" (some "a") []

/-- A two-node tree: root `a` with single child `b`. -/
def c1Tree : Tree :=
  { nodes := [("a", c1NodeA), ("b", c1NodeB)], root_id := some "a", ghost_branches := [] }

/-- A node store whose `children` links form a two-cycle `a → b → a`
(corrupted persisted state; the live-tree invariant forbids this). -/
def cycNodes : NMap :=
  [("a", exampleNode "a" "ua" "ra" none ["b"]),
   ("b", exampleNode "b" "ub" "rb" (some "a") ["a"])]

def c2Ghost : Ghost :=
  { id := "g1", original_node_id := "a", created_at := "c", reason := "r",
    nodes := [("a", exampleNode "a" "ua-old" "ra-old" none ["b"]),
              ("b", exampleNode "b" "ub" "rb" (some "a") [])],
    root_id := "a" }

/-- A tree whose anchor `a` acquired a new child `z` after the ghost `g1`
(which recorded child list `["b"]`) was taken. -/
def c2Tree : Tree :=
  { nodes := [("a", exampleNode "a" "ua-new" "ra-new" none ["z"]),
              ("z", exampleNode "z" "uz" "rz" (some "a") [])],
    root_id := some "a", ghost_branches := [("g1", c2Ghost)] }

/-- A three-node chain `a → b → c` rooted at `a`. -/
def c4Nodes : NMap :=
  [("a", exampleNode "a" "ua" "ra" none ["b"]),
   ("b", exampleNode "b" "ub" "rb" (some "a") ["c"]),
   ("c", exampleNode "c" "uc" "rc" (some "b") [])]

def c3Tree : Tree := { nodes := c4Nodes, root_id := some "a", ghost_branches := [] }

/-- A six-exchange chain `n0 → ... → n5`, every exchange with nonempty
`user_input` and `ai_response` — so the root-to-`n5` path has 6 pairs,
i.e. 12 context lines. -/
def chain6 : Tree :=
  { nodes :=
      [("n0", exampleNode "n0" "u0" "r0" none ["n1"]),
       ("n1", exampleNode "n1" "u1" "r1" (some "n0") ["n2"]),
       ("n2", exampleNode "n2" "u2" "r2" (some "n1") ["n3"]),
       ("n3", exampleNode "n3" "u3" "r3" (some "n2") ["n4"]),
       ("n4", exampleNode "n4" "u4" "r4" (some "n3") ["n5"]),
       ("n5", exampleNode "n5" "u5" "r5" (some "n4") [])],
    root_id := some "n0", ghost_branches := [] }

/-- C1, counterexample: snapshotting node `a` of `c1Tree` (child `b`)
succeeds and the stored ghost record — `ghost_record c1Tree "a" ...`, the
very value `create_ghost_branch` stores — has the anchor `a` itself among
its `nodes` keys and `original_node_id = "a"`.  This falsifies the claim
that the snapshot's node set contains only the strict descendants of the
anchor and not the anchor itself. -/
theorem c1_counterexample_anchor_in_snapshot :
    (create_ghost_branch c1Tree "a" "r" "g1" "ts").isSome = true ∧
    (mlookup (ghost_record c1Tree "a" "r" "g1" "ts").nodes "a").isSome = true ∧
    (ghost_record c1Tree "a" "r" "g1" "ts").original_node_id = "a" := by
  exact ⟨by decide, by decide, rfl⟩

/-- C1 (amended): for every tree and node `A` present in it, the ghost
produced by snapshotting `A` has a nodes map whose keys are exactly `A`
together with the strict descendants of `A` reachable via `children`
links — the anchor `A` itself IS included — and `original_node_id = A`. -/
theorem c1_ghost_nodes_spec (t : Tree) (A : String) (nd : Node)
    (hx : mlookup t.nodes A = some nd) (reason gid ca : String) :
    ∃ t', create_ghost_branch t A reason gid ca = some (gid, t') ∧
      ∃ g, mlookup t'.ghost_branches gid = some g ∧
        g.original_node_id = A ∧
        (mlookup g.nodes A).isSome ∧
        (∀ y, (mlookup g.nodes y).isSome ↔ Reaches t.nodes A y) := by
  refine ⟨_, create_ghost_branch_eq hx reason gid ca, ghost_record t A reason gid ca,
    mlookup_minsert_self _ _ _, rfl, ?_, ?_⟩
  · obtain ⟨st, hrun, heq, hchar, hin, hout⟩ := copy_subtree_spec t.nodes A
    have hA : A ∈ st.1 := (hchar A).mpr (RA.refl nd hx (List.not_mem_nil A))
    have hlook : mlookup (copy_subtree t.nodes A) A = mlookup t.nodes A := by
      rw [heq]
      exact hin A hA
    show (mlookup (copy_subtree t.nodes A) A).isSome
    rw [hlook, hx]
    rfl
  · intro y
    obtain ⟨st, hrun, heq, hchar, hin, hout⟩ := copy_subtree_spec t.nodes A
    show (mlookup (copy_subtree t.nodes A) y).isSome ↔ Reaches t.nodes A y
    rw [heq]
    constructor
    · intro hy
      by_cases hmem : y ∈ st.1
      · exact (hchar y).mp hmem
      · rw [hout y hmem] at hy
        cases hy
    · intro hra
      have hmem : y ∈ st.1 := (hchar y).mpr hra
      rw [hin y hmem]
      obtain ⟨⟨ndy, hndy⟩, _⟩ := RA_end hra
      rw [hndy]
      rfl

/-- C1, witness: the amended theorem applied to `c1Tree` at node `a`. -/
theorem c1_ghost_nodes_spec_witness :
    ∃ t', create_ghost_branch c1Tree "a" "r" "g1" "ts" = some ("g1", t') ∧
      ∃ g, mlookup t'.ghost_branches "g1" = some g ∧
        g.original_node_id = "a" ∧
        (mlookup g.nodes "a").isSome ∧
        (∀ y, (mlookup g.nodes y).isSome ↔ Reaches c1Tree.nodes "a" y) :=
  c1_ghost_nodes_spec c1Tree "a" c1NodeA (by decide) "r" "g1" "ts"

/-- C2: a successful restore of a ghost `g` (its anchor still live, its
own copy of the anchor present) inserts every non-anchor ghost node
verbatim into the live store, sets the live anchor's `children` to
exactly the child list recorded in the ghost's copy of the anchor at
snapshot time (whatever children the anchor acquired since are
discarded), keeps the anchor's live content, and removes the ghost
record from the ghost store. -/
theorem c2_restore_success_spec (t : Tree) (gid : String) (g : Ghost)
    (anchorNd gRoot : Node)
    (hg : mlookup t.ghost_branches gid = some g)
    (ha : mlookup t.nodes g.original_node_id = some anchorNd)
    (hgr : mlookup g.nodes g.original_node_id = some gRoot)
    (hnd : (mkeys g.nodes).Nodup) :
    ∃ t', restore_ghost_branch t gid = Except.ok t' ∧
      (∀ y ndy, mlookup g.nodes y = some ndy → y ≠ g.original_node_id →
        mlookup t'.nodes y = some ndy) ∧
      (∃ a', mlookup t'.nodes g.original_node_id = some a' ∧
        a'.children = gRoot.children ∧
        a'.user_input = anchorNd.user_input ∧
        a'.ai_response = anchorNd.ai_response ∧
        a'.edit_history = anchorNd.edit_history) ∧
      mlookup t'.ghost_branches gid = none := by
  rcases restore_cases t gid with ⟨hg', _⟩ | ⟨g', hg', ha', _⟩ |
    ⟨g', a', hg', ha', hgr', _⟩ | ⟨g', a', gr', hg', ha', hgr', hr⟩
  · rw [hg] at hg'
    cases hg'
  · rw [hg] at hg'
    injection hg' with h'
    subst h'
    rw [ha] at ha'
    cases ha'
  · rw [hg] at hg'
    injection hg' with h'
    subst h'
    rw [hgr] at hgr'
    cases hgr'
  · rw [hg] at hg'
    injection hg' with h'
    subst h'
    rw [ha] at ha'
    injection ha' with h2
    subst h2
    rw [hgr] at hgr'
    injection hgr' with h3
    subst h3
    refine ⟨_, hr, ?_, ?_, ?_⟩
    · intro y ndy hy hyne
      rw [mlookup_minsert_ne _ _ _ _ (Ne.symm hyne)]
      unfold restore_nodes
      exact foldlIns_mem g.original_node_id hnd hy hyne t.nodes
    · exact ⟨_, mlookup_minsert_self _ _ _, rfl, rfl, rfl, rfl⟩
    · exact mlookup_merase_self t.ghost_branches gid

/-- C2, witness: restoring `g1` into `c2Tree` — the anchor's live child
list `["z"]` is replaced by the snapshot-time list `["b"]`, `b` comes
back verbatim, and the ghost record is gone. -/
theorem c2_restore_success_spec_witness :
    ∃ t', restore_ghost_branch c2Tree "g1" = Except.ok t' ∧
      (∀ y ndy, mlookup c2Ghost.nodes y = some ndy → y ≠ c2Ghost.original_node_id →
        mlookup t'.nodes y = some ndy) ∧
      (∃ a', mlookup t'.nodes c2Ghost.original_node_id = some a' ∧
        a'.children = (exampleNode "a" "ua-old" "ra-old" none ["b"]).children ∧
        a'.user_input = (exampleNode "a" "ua-new" "ra-new" none ["z"]).user_input ∧
        a'.ai_response = (exampleNode "a" "ua-new" "ra-new" none ["z"]).ai_response ∧
        a'.edit_history = (exampleNode "a" "ua-new" "ra-new" none ["z"]).edit_history) ∧
      mlookup t'.ghost_branches "g1" = none :=
  c2_restore_success_spec c2Tree "g1" c2Ghost
    (exampleNode "a" "ua-new" "ra-new" none ["z"])
    (exampleNode "a" "ua-old" "ra-old" none ["b"])
    (by decide) (by decide) (by decide) (by decide)

/-- C5: `restore_ghost_branch` fails with `notFound` exactly when the
ghost id is absent from the ghost store, and with `invalidState` exactly
when the ghost exists but its `original_node_id` is gone from the live
node store.  In the embedding a failing restore returns only the error
and no tree — matching the route, which returns 404/400 before reaching
`save_tree_memory`, so neither the live tree nor the ghost store is
changed by a failed restore. -/
theorem c5_restore_failure_modes (t : Tree) (gid : String) :
    ((restore_ghost_branch t gid = Except.error RestoreError.notFound) ↔
      mlookup t.ghost_branches gid = none) ∧
    ((restore_ghost_branch t gid = Except.error RestoreError.invalidState) ↔
      ∃ g, mlookup t.ghost_branches gid = some g ∧
        mlookup t.nodes g.original_node_id = none) := by
  constructor
  · rcases restore_cases t gid with ⟨hg, hr⟩ | ⟨g, hg, ha, hr⟩ |
      ⟨g, a, hg, ha, hgr, hr⟩ | ⟨g, a, gr, hg, ha, hgr, hr⟩ <;> rw [hr] <;> simp [hg]
  · rcases restore_cases t gid with ⟨hg, hr⟩ | ⟨g, hg, ha, hr⟩ |
      ⟨g, a, hg, ha, hgr, hr⟩ | ⟨g, a, gr, hg, ha, hgr, hr⟩
    · rw [hr]; simp [hg]
    · rw [hr]; simp [hg, ha]
    · rw [hr]; simp [hg, ha]
    · rw [hr]; simp [hg, ha]

/-- C6: the failing input.  The root-to-`n5` path of `chain6` has six
exchanges, all twelve context lines nonempty; the claim (and the code's
own comment "Last 10 exchanges") says all six pairs (at most ten) are
returned root-first, but the code takes `context_parts[-10:]` — the last
ten LINES — so the root exchange `("u0", "r0")` is cut off and only five
exchanges survive.  An absent or unset node id still yields the empty
context. -/
theorem c6_truncation_failing_input :
    build_conversation_context chain6 (some "n5") 100 =
      some ("Human: u1\nAssistant: r1\nHuman: u2\nAssistant: r2\nHuman: u3\nAssistant: r3\nHuman: u4\nAssistant: r4\nHuman: u5\nAssistant: r5") ∧
    build_conversation_context chain6 none 100 = some "" ∧
    build_conversation_context chain6 (some "zz") 100 = some "" := by
  refine ⟨by decide, rfl, by decide⟩

/-- The `collect_descendants` recursion of `remove_subtree` never
finishes on `nodes`, starting from `x`: every fuel bound is exhausted. -/
def collect_diverges (nodes : NMap) (x : String) : Prop :=
  ∀ fuel, collectF nodes fuel x [] = none

theorem cyc_collect_none :
    ∀ fuel, (∀ acc, collectF cycNodes fuel "a" acc = none) ∧
      (∀ acc, collectF cycNodes fuel "b" acc = none) := by
  intro fuel
  induction fuel with
  | zero => exact ⟨fun acc => rfl, fun acc => rfl⟩
  | succ f ih =>
    constructor
    · intro acc
      rw [collectF_succ]
      show collectListF cycNodes f ["b"] acc = none
      rw [collectListF_cons, ih.2 (acc ++ ["b"])]
    · intro acc
      rw [collectF_succ]
      show collectListF cycNodes f ["a"] acc = none
      rw [collectListF_cons, ih.1 (acc ++ ["a"])]

/-- C7, counterexample: on the cyclic store `cycNodes` (children links
`a → b → a`) the descendant collection of `remove_subtree` — which
tracks no visited set — runs forever: it completes within no fuel bound.
This falsifies the claim that BOTH subtree primitives track a visited set
and terminate on every input. -/
theorem c7_counterexample_cascade_diverges : collect_diverges cycNodes "a" :=
  fun fuel => (cyc_collect_none fuel).1 []

/-- C7 (amended): the deep-copy primitive (`copy_subtree`, used for ghost
creation) does track a visited set and therefore terminates on every
input node mapping, cyclic ones included — fuel `numKeys + 1` always
suffices; the cascade-delete primitive (`remove_subtree`) tracks no
visited set and its descendant collection fails to terminate on cyclic
input such as `cycNodes`. -/
theorem c7_traversal_termination :
    (∀ (nodes : NMap) (cur : String),
      (copyF nodes (numKeys nodes + 1) cur ([], [])).isSome = true) ∧
    (∀ fuel, collectF cycNodes fuel "a" [] = none) := by
  constructor
  · intro nodes cur
    have hle : unvisitedCount nodes ([] : List String) + 1 ≤ numKeys nodes + 1 :=
      Nat.add_le_add_right (unvisitedCount_nil_le nodes) 1
    obtain ⟨st, hrun, _⟩ := copyF_some_of_le (numKeys nodes + 1) nodes cur ([], []) hle
    rw [hrun]
    rfl
  · exact fun fuel => (cyc_collect_none fuel).1 []

/-- C9: with a root already set, adding an exchange with an absent (or
unknown, or empty) `parent_id` inserts the new node and silently
overwrites `root_id` with its id; the previous root's record is still in
the node store but is no longer reachable from the new root via
`children` links. -/
theorem c9_chat_new_root (t : Tree) (r : String) (rnd : Node)
    (_hroot : t.root_id = some r)
    (hr : mlookup t.nodes r = some rnd)
    (newId ui ai mu ts : String)
    (hfresh : mlookup t.nodes newId = none)
    (parent_id : Option String)
    (hpar : parent_id = none ∨ parent_id = some "" ∨
      (∃ p, parent_id = some p ∧ p ≠ "" ∧ mlookup t.nodes p = none ∧ p ≠ newId)) :
    (chat_update t parent_id newId ui ai mu ts).root_id = some newId ∧
    mlookup (chat_update t parent_id newId ui ai mu ts).nodes r = some rnd ∧
    r ≠ newId ∧
    ¬ Reaches (chat_update t parent_id newId ui ai mu ts).nodes newId r := by
  have hrne : r ≠ newId := by
    intro hcon
    rw [hcon, hfresh] at hr
    cases hr
  have hform : chat_update t parent_id newId ui ai mu ts =
      { t with
        nodes := minsert t.nodes newId
          { id := newId, user_input := ui, ai_response := ai, parent_id := parent_id,
            model_used := mu, timestamp := ts, children := [], edit_history := [],
            last_edited := none },
        root_id := some newId } := by
    rcases hpar with rfl | rfl | ⟨p, rfl, hpe, hlook, hpn⟩
    · rfl
    · rfl
    · have hnone : mlookup (minsert t.nodes newId
          { id := newId, user_input := ui, ai_response := ai, parent_id := some p,
            model_used := mu, timestamp := ts, children := [], edit_history := [],
            last_edited := none }) p = none := by
        rw [mlookup_minsert_ne _ _ _ _ (Ne.symm hpn)]
        exact hlook
      simp [chat_update, hpe, hnone]
  rw [hform]
  refine ⟨rfl, ?_, hrne, ?_⟩
  · rw [mlookup_minsert_ne _ _ _ _ (Ne.symm hrne)]
    exact hr
  · intro hra
    obtain ⟨c, nda, hnda, hc, _⟩ := RA_uncons hra hrne
    rw [mlookup_minsert_self] at hnda
    injection hnda with h'
    subst h'
    cases hc

/-- C9, witness: on `c1Tree` (root `a`), a chat with `parent_id = none`
makes the fresh node `w` the root and orphans `a`. -/
theorem c9_chat_new_root_witness :
    (chat_update c1Tree none "w" "ui" "ai" "m1" "t1").root_id = some "w" ∧
    mlookup (chat_update c1Tree none "w" "ui" "ai" "m1" "t1").nodes "a" = some c1NodeA ∧
    "a" ≠ "w" ∧
    ¬ Reaches (chat_update c1Tree none "w" "ui" "ai" "m1" "t1").nodes "w" "a" :=
  c9_chat_new_root c1Tree "a" c1NodeA (by decide) (by decide) "w" "ui" "ai" "m1" "t1"
    (by decide) none (Or.inl rfl)

theorem edit_apply_content_fields (node : Node) (nui nai : String) (g : Option String)
    (le hs : String) :
    (edit_apply_content node nui nai g le hs).children = node.children ∧
    (edit_apply_content node nui nai g le hs).user_input =
      (if nui ≠ "" then nui else node.user_input) ∧
    (edit_apply_content node nui nai g le hs).ai_response =
      (if nai ≠ "" then nai else node.ai_response) ∧
    (edit_apply_content node nui nai g le hs).edit_history =
      node.edit_history ++
        [{ timestamp := hs,
           changes_user_input := if nui ≠ "" then some nui else none,
           changes_ai_response := if nai ≠ "" then some nai else none,
           ghost_created := g }] ∧
    (edit_apply_content node nui nai g le hs).last_edited = some le := by
  unfold edit_apply_content
  by_cases h1 : nui = "" <;> by_cases h2 : nai = "" <;> simp [h1, h2]

/-- C10: the public edit treats empty (or whitespace-only) strings as
"not provided".  A request whose stripped `user_input` and `ai_response`
are both empty is rejected with the 400 `emptyBoth` error — raised before
the tree is even loaded, so nothing is mutated (in the embedding the
error carries no tree) — and on every successful edit a field whose
stripped value is empty keeps its previous content, so an edit can never
overwrite `user_input` or `ai_response` with the empty string. -/
theorem c10_edit_empty_content_policy (t : Tree) (nid ui ai : String) (cg : Bool)
    (gid gca le hs : String) (fuel : Nat) :
    (edit_node t nid ui ai cg gid gca le hs fuel = some (Except.error EditError.emptyBoth) ↔
      (pyStrip ui = "" ∧ pyStrip ai = "")) ∧
    (∀ (t' : Tree) (og : Option String) (node : Node),
      edit_node t nid ui ai cg gid gca le hs fuel = some (Except.ok (t', og)) →
      mlookup t.nodes nid = some node →
      ∃ nd', mlookup t'.nodes nid = some nd' ∧
        nd'.user_input = (if pyStrip ui ≠ "" then pyStrip ui else node.user_input) ∧
        nd'.ai_response = (if pyStrip ai ≠ "" then pyStrip ai else node.ai_response)) := by
  refine ⟨edit_node_emptyBoth_iff t nid ui ai cg gid gca le hs fuel, ?_⟩
  intro t' og node h hnode
  obtain ⟨hne, node0, hnode0, t1, hdisj, nodes2, hrm, ht'⟩ := edit_node_ok_spec h
  rw [hnode] at hnode0
  injection hnode0 with he
  subst he
  have ht1n : t1.nodes = t.nodes := by
    rcases hdisj with ⟨_, _, _, ht1⟩ | ⟨_, _, ht1⟩ <;> subst ht1 <;> rfl
  have hrm' : (if decide (0 < node.children.length) then
      remove_subtree t.nodes nid true fuel else some t.nodes) = some nodes2 := by
    rw [← ht1n]
    exact hrm
  by_cases hch : node.children = []
  · have hdec : decide (0 < node.children.length) = false := by simp [hch]
    rw [hdec] at hrm'
    simp only [Bool.false_eq_true, if_false] at hrm'
    injection hrm' with hn2
    have hlook : mlookup nodes2 nid = some node := by
      rw [← hn2]
      exact hnode
    have ht'n : t'.nodes = minsert nodes2 nid
        (edit_apply_content node (pyStrip ui) (pyStrip ai) og le hs) := by
      rw [ht']
      simp [hlook]
    obtain ⟨hc, hu, ha, hh, hl⟩ :=
      edit_apply_content_fields node (pyStrip ui) (pyStrip ai) og le hs
    refine ⟨_, by rw [ht'n]; exact mlookup_minsert_self _ _ _, ?_, ?_⟩
    · rw [hu]
    · rw [ha]
  · have hdec : decide (0 < node.children.length) = true :=
      decide_eq_true (List.length_pos.mpr hch)
    rw [hdec] at hrm'
    simp only [if_true] at hrm'
    obtain ⟨ds, hcol, hxn, hmem, hmEq⟩ := remove_subtree_true_spec hnode hrm'
    have hlook : mlookup nodes2 nid = some { node with children := ([] : List String) } := by
      rw [hmEq]
      exact mlookup_minsert_self _ _ _
    have ht'n : t'.nodes = minsert nodes2 nid
        (edit_apply_content { node with children := ([] : List String) }
          (pyStrip ui) (pyStrip ai) og le hs) := by
      rw [ht']
      simp [hlook]
    obtain ⟨hc, hu, ha, hh, hl⟩ :=
      edit_apply_content_fields { node with children := ([] : List String) }
        (pyStrip ui) (pyStrip ai) og le hs
    refine ⟨_, by rw [ht'n]; exact mlookup_minsert_self _ _ _, ?_, ?_⟩
    · rw [hu]
    · rw [ha]

/-- C10, witness: on `c3Tree`, a whitespace-only edit of `b` is rejected
with `emptyBoth`, and a successful edit of `b` with empty `ai_response`
keeps `b`'s old `ai_response` while updating `user_input`. -/
theorem c10_edit_empty_content_policy_witness :
    edit_node c3Tree "b" "" "  " false "g1" "ca" "le" "hs" 10
      = some (Except.error EditError.emptyBoth) ∧
    (∀ (t' : Tree) (og : Option String) (node : Node),
      edit_node c3Tree "b" " xx " "" false "g1" "ca" "le" "hs" 10
        = some (Except.ok (t', og)) →
      mlookup c3Tree.nodes "b" = some node →
      ∃ nd', mlookup t'.nodes "b" = some nd' ∧
        nd'.user_input = (if pyStrip " xx " ≠ "" then pyStrip " xx " else node.user_input) ∧
        nd'.ai_response = (if pyStrip "" ≠ "" then pyStrip "" else node.ai_response)) :=
  ⟨(c10_edit_empty_content_policy c3Tree "b" "" "  " false "g1" "ca" "le" "hs" 10).1.mpr
      (by decide),
   (c10_edit_empty_content_policy c3Tree "b" " xx " "" false "g1" "ca" "le" "hs" 10).2⟩

theorem edit_node_run_shape {t : Tree} {A ui ai : String} {cg : Bool}
    {gid gca le hs : String} {fuel : Nat} {t' : Tree} {og : Option String} {node : Node}
    (hx : mlookup t.nodes A = some node)
    (h : edit_node t A ui ai cg gid gca le hs fuel = some (Except.ok (t', og))) :
    ((cg = true ∧ node.children ≠ [] ∧ og = some gid ∧
      t'.ghost_branches = minsert t.ghost_branches gid
        (ghost_record t A "Node edited - preserving original branch" gid gca)) ∨
     (¬(cg = true ∧ node.children ≠ []) ∧ og = none ∧
      t'.ghost_branches = t.ghost_branches)) ∧
    ((node.children = [] ∧
      t'.nodes = minsert t.nodes A
        (edit_apply_content node (pyStrip ui) (pyStrip ai) og le hs)) ∨
     (node.children ≠ [] ∧ ∃ ds, collectF t.nodes fuel A [] = some ds ∧ A ∉ ds ∧
      (∀ y, y ∈ ds ↔ DescFrom t.nodes A y) ∧
      t'.nodes = minsert
        (minsert (ds.foldl (fun acc d => merase acc d) t.nodes) A
          { node with children := ([] : List String) }) A
        (edit_apply_content { node with children := ([] : List String) }
          (pyStrip ui) (pyStrip ai) og le hs))) := by
  obtain ⟨hne, node0, hnode0, t1, hdisj, nodes2, hrm, ht'⟩ := edit_node_ok_spec h
  rw [hx] at hnode0
  injection hnode0 with he
  subst he
  have ht1n : t1.nodes = t.nodes := by
    rcases hdisj with ⟨_, _, _, ht1⟩ | ⟨_, _, ht1⟩ <;> subst ht1 <;> rfl
  have hgb : t'.ghost_branches = t1.ghost_branches := by rw [ht']
  constructor
  · rcases hdisj with ⟨hcg, hch, hog, ht1⟩ | ⟨hn, hog, ht1⟩
    · exact Or.inl ⟨hcg, hch, hog, by rw [hgb, ht1]⟩
    · exact Or.inr ⟨hn, hog, by rw [hgb, ht1]⟩
  · have hrm' : (if decide (0 < node.children.length) then
        remove_subtree t.nodes A true fuel else some t.nodes) = some nodes2 := by
      rw [← ht1n]
      exact hrm
    by_cases hch : node.children = []
    · left
      have hdec : decide (0 < node.children.length) = false := by simp [hch]
      rw [hdec] at hrm'
      simp only [Bool.false_eq_true, if_false] at hrm'
      injection hrm' with hn2
      subst hn2
      refine ⟨hch, ?_⟩
      rw [ht']
      simp [hx]
    · right
      have hdec : decide (0 < node.children.length) = true :=
        decide_eq_true (List.length_pos.mpr hch)
      rw [hdec] at hrm'
      simp only [if_true] at hrm'
      obtain ⟨ds, hcol, hxn, hmem, hmEq⟩ := remove_subtree_true_spec hx hrm'
      subst hmEq
      refine ⟨hch, ds, hcol, hxn, hmem, ?_⟩
      have hlook : mlookup (minsert (ds.foldl (fun acc d => merase acc d) t.nodes) A
          { node with children := ([] : List String) }) A
          = some { node with children := ([] : List String) } :=
        mlookup_minsert_self _ _ _
      rw [ht']
      simp [hlook]

/-- C3: editing a node `A` that has at least one child.  With
`preserve = true` the run returns the fresh ghost id, stores a ghost
record anchored at `A` whose snapshot covers every node reachable from
`A` (so in particular all descendants), leaves `A` present as a leaf
(`children = []`) with only nonempty stripped fields overwritten and an
edit-history record appended carrying the ghost id and the timestamp,
and removes every strict descendant of `A` from the live store.  With
`preserve = false` no ghost id is returned, the ghost store is
unchanged, and `A` is likewise a leaf with the appended history record
carrying no ghost id, the strict descendants being removed for good. -/
theorem c3_edit_with_children_spec (t : Tree) (A ui ai gid gca le hs : String)
    (fuel fuel' : Nat) (node : Node)
    (hx : mlookup t.nodes A = some node)
    (hch : node.children ≠ [])
    (t1 : Tree) (og1 : Option String)
    (h1 : edit_node t A ui ai true gid gca le hs fuel = some (Except.ok (t1, og1)))
    (t2 : Tree) (og2 : Option String)
    (h2 : edit_node t A ui ai false gid gca le hs fuel' = some (Except.ok (t2, og2))) :
    og1 = some gid ∧
    (∃ g, mlookup t1.ghost_branches gid = some g ∧ g.original_node_id = A ∧
      (∀ y, Reaches t.nodes A y → (mlookup g.nodes y).isSome = true)) ∧
    (∃ nd1, mlookup t1.nodes A = some nd1 ∧ nd1.children = [] ∧
      nd1.user_input = (if pyStrip ui ≠ "" then pyStrip ui else node.user_input) ∧
      nd1.ai_response = (if pyStrip ai ≠ "" then pyStrip ai else node.ai_response) ∧
      nd1.edit_history = node.edit_history ++
        [{ timestamp := hs,
           changes_user_input := if pyStrip ui ≠ "" then some (pyStrip ui) else none,
           changes_ai_response := if pyStrip ai ≠ "" then some (pyStrip ai) else none,
           ghost_created := some gid }] ∧
      nd1.last_edited = some le) ∧
    (∀ y, Reaches t.nodes A y → y ≠ A → mlookup t1.nodes y = none) ∧
    og2 = none ∧
    t2.ghost_branches = t.ghost_branches ∧
    (∃ nd2, mlookup t2.nodes A = some nd2 ∧ nd2.children = [] ∧
      nd2.edit_history = node.edit_history ++
        [{ timestamp := hs,
           changes_user_input := if pyStrip ui ≠ "" then some (pyStrip ui) else none,
           changes_ai_response := if pyStrip ai ≠ "" then some (pyStrip ai) else none,
           ghost_created := none }] ∧
      nd2.last_edited = some le) ∧
    (∀ y, Reaches t.nodes A y → y ≠ A → mlookup t2.nodes y = none) := by
  obtain ⟨hshape1g, hshape1n⟩ := edit_node_run_shape hx h1
  rcases hshape1g with ⟨_, _, hog1, hgb1⟩ | ⟨hn, _, _⟩
  swap
  · exact absurd ⟨rfl, hch⟩ hn
  rcases hshape1n with ⟨hch0, _⟩ | ⟨_, ds, hcol, hxn, hmem, htn1⟩
  · exact absurd hch0 hch
  subst hog1
  obtain ⟨hshape2g, hshape2n⟩ := edit_node_run_shape hx h2
  rcases hshape2g with ⟨hcg2, _⟩ | ⟨_, hog2, hgb2⟩
  · cases hcg2
  rcases hshape2n with ⟨hch0, _⟩ | ⟨_, ds2, hcol2, hxn2, hmem2, htn2⟩
  · exact absurd hch0 hch
  subst hog2
  refine ⟨rfl, ?_, ?_, ?_, rfl, hgb2, ?_, ?_⟩
  · refine ⟨ghost_record t A "Node edited - preserving original branch" gid gca,
      ?_, rfl, ?_⟩
    · rw [hgb1]
      exact mlookup_minsert_self _ _ _
    · intro y hr
      obtain ⟨st, _, hcopy, hkeys, hvals, _⟩ := copy_subtree_spec t.nodes A
      have hymem : y ∈ st.1 := (hkeys y).mpr hr
      show (mlookup (copy_subtree t.nodes A) y).isSome = true
      rw [hcopy, hvals y hymem]
      obtain ⟨⟨ndy, hndy⟩, _⟩ := RA_end hr
      rw [hndy]
      rfl
  · obtain ⟨hc, hu, ha, hh, hl⟩ :=
      edit_apply_content_fields { node with children := ([] : List String) }
        (pyStrip ui) (pyStrip ai) (some gid) le hs
    exact ⟨_, by rw [htn1]; exact mlookup_minsert_self _ _ _,
      by rw [hc], by rw [hu], by rw [ha], by rw [hh], hl⟩
  · intro y hr hne2
    rw [htn1, mlookup_minsert_ne _ _ _ _ (Ne.symm hne2),
      mlookup_minsert_ne _ _ _ _ (Ne.symm hne2), mlookup_foldl_merase]
    have hyd : y ∈ ds := (hmem y).mpr (strict_reach_desc hr hne2)
    simp [hyd]
  · obtain ⟨hc, hu, ha, hh, hl⟩ :=
      edit_apply_content_fields { node with children := ([] : List String) }
        (pyStrip ui) (pyStrip ai) none le hs
    exact ⟨_, by rw [htn2]; exact mlookup_minsert_self _ _ _,
      by rw [hc], by rw [hh], hl⟩
  · intro y hr hne2
    rw [htn2, mlookup_minsert_ne _ _ _ _ (Ne.symm hne2),
      mlookup_minsert_ne _ _ _ _ (Ne.symm hne2), mlookup_foldl_merase]
    have hyd : y ∈ ds2 := (hmem2 y).mpr (strict_reach_desc hr hne2)
    simp [hyd]

def c3NodeB : Node := exampleNode "b" "ub" "rb" (some "a") ["c"]

/-- The tree produced by the preserving edit of `b` in `c3Tree`
(extracted from the run itself, so it evaluates by reduction). -/
def c3RunTrue : Tree :=
  match edit_node c3Tree "b" " xx " "" true "g1" "ca" "le" "hs" 10 with
  | some (Except.ok (t1, _)) => t1
  | _ => c3Tree

/-- The tree produced by the non-preserving edit of `b` in `c3Tree`. -/
def c3RunFalse : Tree :=
  match edit_node c3Tree "b" " xx " "" false "g1" "ca" "le" "hs" 10 with
  | some (Except.ok (t1, _)) => t1
  | _ => c3Tree

/-- C3, witness: the concrete edits of node `b` (one child `c`) of
`c3Tree`, with `preserve = true` and `preserve = false`. -/
theorem c3_edit_with_children_spec_witness :
    mlookup c3Tree.nodes "b" = some c3NodeB ∧
    c3NodeB.children ≠ [] ∧
    ((some "g1" : Option String) = some "g1" ∧
     (∃ g, mlookup c3RunTrue.ghost_branches "g1" = some g ∧
       g.original_node_id = "b" ∧
       (∀ y, Reaches c3Tree.nodes "b" y → (mlookup g.nodes y).isSome = true)) ∧
     (∃ nd1, mlookup c3RunTrue.nodes "b" = some nd1 ∧ nd1.children = [] ∧
       nd1.user_input =
         (if pyStrip " xx " ≠ "" then pyStrip " xx " else c3NodeB.user_input) ∧
       nd1.ai_response =
         (if pyStrip "" ≠ "" then pyStrip "" else c3NodeB.ai_response) ∧
       nd1.edit_history = c3NodeB.edit_history ++
         [{ timestamp := "hs",
            changes_user_input :=
              if pyStrip " xx " ≠ "" then some (pyStrip " xx ") else none,
            changes_ai_response :=
              if pyStrip "" ≠ "" then some (pyStrip "") else none,
            ghost_created := some "g1" }] ∧
       nd1.last_edited = some "le") ∧
     (∀ y, Reaches c3Tree.nodes "b" y → y ≠ "b" →
       mlookup c3RunTrue.nodes y = none) ∧
     (none : Option String) = none ∧
     c3RunFalse.ghost_branches = c3Tree.ghost_branches ∧
     (∃ nd2, mlookup c3RunFalse.nodes "b" = some nd2 ∧ nd2.children = [] ∧
       nd2.edit_history = c3NodeB.edit_history ++
         [{ timestamp := "hs",
            changes_user_input :=
              if pyStrip " xx " ≠ "" then some (pyStrip " xx ") else none,
            changes_ai_response :=
              if pyStrip "" ≠ "" then some (pyStrip "") else none,
            ghost_created := none }] ∧
       nd2.last_edited = some "le") ∧
     (∀ y, Reaches c3Tree.nodes "b" y → y ≠ "b" →
       mlookup c3RunFalse.nodes y = none)) :=
  ⟨by decide, by decide,
   c3_edit_with_children_spec c3Tree "b" " xx " "" "g1" "ca" "le" "hs" 10 10 c3NodeB
     (by decide) (by decide) c3RunTrue (some "g1") (by rfl)
     c3RunFalse none (by rfl)⟩

/-- C8: value independence of the extracted snapshot.  The ghost stored
by a preserving edit of `A` snapshots, for every node reachable from
`A`, exactly the value that node had in the live store at snapshot time
(and holds nothing else); afterwards a mutation of the live tree — any
further successful edit, of any node and with any preserve flag, under
any fresh ghost id — leaves the stored snapshot record untouched, and a
mutation of the ghost store (deleting the ghost) leaves the live node
store untouched.  In the Python source the independence comes from
`copy.deepcopy`; here it is visible as the snapshot being a pure
function of the pre-edit store that later operations never rewrite. -/
theorem c8_extract_value_independence (t : Tree) (A ui ai gid gca le hs : String)
    (fuel : Nat) (node : Node) (t' : Tree)
    (hx : mlookup t.nodes A = some node)
    (h : edit_node t A ui ai true gid gca le hs fuel = some (Except.ok (t', some gid)))
    (g : Ghost) (hg : mlookup t'.ghost_branches gid = some g) :
    (∀ y, Reaches t.nodes A y → mlookup g.nodes y = mlookup t.nodes y) ∧
    (∀ y, ¬ Reaches t.nodes A y → mlookup g.nodes y = none) ∧
    (∀ (nid2 ui2 ai2 : String) (cg2 : Bool) (gid2 gca2 le2 hs2 : String)
      (fuel2 : Nat) (t2 : Tree) (og2 : Option String),
      gid2 ≠ gid →
      edit_node t' nid2 ui2 ai2 cg2 gid2 gca2 le2 hs2 fuel2
        = some (Except.ok (t2, og2)) →
      mlookup t2.ghost_branches gid = some g) ∧
    (∀ t3, delete_ghost_branch t' gid = some t3 → t3.nodes = t'.nodes) := by
  obtain ⟨hshapeg, _⟩ := edit_node_run_shape hx h
  rcases hshapeg with ⟨_, _, _, hgb⟩ | ⟨_, hog, _⟩
  swap
  · cases hog
  have hg' := hg
  rw [hgb, mlookup_minsert_self] at hg'
  injection hg' with hgv
  refine ⟨?_, ?_, ?_, ?_⟩
  · intro y hr
    obtain ⟨st, _, hcopy, hkeys, hvals, _⟩ := copy_subtree_spec t.nodes A
    have hymem : y ∈ st.1 := (hkeys y).mpr hr
    rw [← hgv]
    show mlookup (copy_subtree t.nodes A) y = mlookup t.nodes y
    rw [hcopy]
    exact hvals y hymem
  · intro y hnr
    obtain ⟨st, _, hcopy, hkeys, _, hnone⟩ := copy_subtree_spec t.nodes A
    have hynmem : y ∉ st.1 := fun hm => hnr ((hkeys y).mp hm)
    rw [← hgv]
    show mlookup (copy_subtree t.nodes A) y = none
    rw [hcopy]
    exact hnone y hynmem
  · intro nid2 ui2 ai2 cg2 gid2 gca2 le2 hs2 fuel2 t2 og2 hne2 h2
    obtain ⟨_, node2, hnode2, t1, hdisj, nodes2, hrm, ht2⟩ := edit_node_ok_spec h2
    have hgb2 : t2.ghost_branches = t1.ghost_branches := by rw [ht2]
    rw [hgb2]
    rcases hdisj with ⟨_, _, _, ht1⟩ | ⟨_, _, ht1⟩ <;> subst ht1
    · show mlookup (minsert t'.ghost_branches gid2 _) gid = some g
      rw [mlookup_minsert_ne _ _ _ _ hne2]
      exact hg
    · exact hg
  · intro t3 h3
    unfold delete_ghost_branch at h3
    rw [hg] at h3
    injection h3 with ht3
    rw [← ht3]

/-- C8, witness: the preserving edit of `b` in `c3Tree` stores the ghost
record whose snapshot agrees with `c3Tree` on every node reachable from
`b`, survives a later edit of `a` under a different ghost id, and whose
deletion leaves the live node store unchanged. -/
theorem c8_extract_value_independence_witness :
    (∀ y, Reaches c3Tree.nodes "b" y →
      mlookup (ghost_record c3Tree "b"
        "Node edited - preserving original branch" "g1" "ca").nodes y =
        mlookup c3Tree.nodes y) ∧
    (∀ y, ¬ Reaches c3Tree.nodes "b" y →
      mlookup (ghost_record c3Tree "b"
        "Node edited - preserving original branch" "g1" "ca").nodes y = none) ∧
    (∀ (nid2 ui2 ai2 : String) (cg2 : Bool) (gid2 gca2 le2 hs2 : String)
      (fuel2 : Nat) (t2 : Tree) (og2 : Option String),
      gid2 ≠ "g1" →
      edit_node c3RunTrue nid2 ui2 ai2 cg2 gid2 gca2 le2 hs2 fuel2
        = some (Except.ok (t2, og2)) →
      mlookup t2.ghost_branches "g1" = some (ghost_record c3Tree "b"
        "Node edited - preserving original branch" "g1" "ca")) ∧
    (∀ t3, delete_ghost_branch c3RunTrue "g1" = some t3 →
      t3.nodes = c3RunTrue.nodes) :=
  c8_extract_value_independence c3Tree "b" " xx " "" "g1" "ca" "le" "hs" 10
    c3NodeB c3RunTrue (by decide) (by rfl)
    (ghost_record c3Tree "b" "Node edited - preserving original branch" "g1" "ca")
    (by rfl)

theorem no_desc_ref {nodes : NMap} {x : String} {ds : List String}
    (hpc : parent_coherent nodes = true)
    (hmem : ∀ z, z ∈ ds ↔ DescFrom nodes x z)
    {y : String} {ndy : Node} (hyx : y ≠ x) (hy : y ∉ ds)
    (hyl : mlookup nodes y = some ndy)
    {c : String} (hc : c ∈ ndy.children) (hcp : (mlookup nodes c).isSome = true) :
    c ∉ ds := by
  intro hcd
  obtain ⟨b, ndb, hrb, hlb, hcb⟩ := (hmem c).mp hcd
  obtain ⟨ndc, hndc⟩ := Option.isSome_iff_exists.mp hcp
  have h1 := parent_coherent_spec hpc b ndb c ndc hlb hcb hndc
  have h2 := parent_coherent_spec hpc y ndy c ndc hyl hc hndc
  rw [h1] at h2
  injection h2 with hby
  subst hby
  exact hy ((hmem b).mpr (strict_reach_desc hrb hyx))

/-- C4: cascade delete.  For a node `x` present in a store satisfying
the tree invariants (`parent_coherent`, `children_nodup`, and no node
stored under the falsy key `""`), a terminating
`remove_subtree(..., preserve_root=True)` keeps `x` with `children`
cleared and deletes every strict descendant, and a terminating
`remove_subtree(..., preserve_root=False)` additionally deletes `x`
itself, leaves no remaining node with `x` among its children, and —
when `x` has a real parent `p` that is not itself deleted — rewrites
`p`'s children to the old list with `x` erased.  In both results no
remaining node references an identifier that was present before and was
deleted: every child reference of a surviving node that used to resolve
still resolves. -/
theorem c4_cascade_delete_spec (nodes : NMap) (x : String) (nd : Node)
    (fuel fuel' : Nat) (m1 m2 : NMap)
    (hx : mlookup nodes x = some nd)
    (hpc : parent_coherent nodes = true)
    (hcn : children_nodup nodes = true)
    (hempty : mlookup nodes "" = none)
    (h1 : remove_subtree nodes x true fuel = some m1)
    (h2 : remove_subtree nodes x false fuel' = some m2) :
    mlookup m1 x = some { nd with children := ([] : List String) } ∧
    (∀ y, DescFrom nodes x y → y ≠ x → mlookup m1 y = none) ∧
    (∀ y ndy c, mlookup m1 y = some ndy → c ∈ ndy.children →
      (mlookup nodes c).isSome = true → (mlookup m1 c).isSome = true) ∧
    mlookup m2 x = none ∧
    (∀ y, DescFrom nodes x y → mlookup m2 y = none) ∧
    (∀ y ndy, mlookup m2 y = some ndy → x ∉ ndy.children) ∧
    (∀ p pnd0, nd.parent_id = some p → p ≠ "" → p ≠ x → ¬ DescFrom nodes x p →
      mlookup nodes p = some pnd0 →
      ∃ pnd', mlookup m2 p = some pnd' ∧ pnd'.children = pnd0.children.erase x) ∧
    (∀ y ndy c, mlookup m2 y = some ndy → c ∈ ndy.children →
      (mlookup nodes c).isSome = true → (mlookup m2 c).isSome = true) := by
  obtain ⟨ds, hcol, hxn, hmem, hm1⟩ := remove_subtree_true_spec hx h1
  obtain ⟨ds2, hcol2, hxn2, hmem2, hcases⟩ := remove_subtree_false_spec hx h2
  have hNN : ∀ z, mlookup (ds.foldl (fun acc d => merase acc d) nodes) z =
      if z ∈ ds then none else mlookup nodes z := fun z => mlookup_foldl_merase _ _ _
  have hNN2 : ∀ z, mlookup (ds2.foldl (fun acc d => merase acc d) nodes) z =
      if z ∈ ds2 then none else mlookup nodes z := fun z => mlookup_foldl_merase _ _ _
  have hnoX : ∀ y ndy, mlookup m2 y = some ndy → x ∉ ndy.children := by
    intro y ndy hy hxc
    rcases hcases with ⟨hpar, hm2⟩ | ⟨p, pnd, hpid, hpne, hNNp, hm2⟩
    · rw [hm2] at hy
      have hynx : y ≠ x := by
        intro he
        subst he
        rw [mlookup_merase_self] at hy
        cases hy
      rw [mlookup_merase_ne _ _ _ (Ne.symm hynx), hNN2] at hy
      by_cases hyds : y ∈ ds2
      · rw [if_pos hyds] at hy
        cases hy
      · rw [if_neg hyds] at hy
        have hpar' := parent_coherent_spec hpc y ndy x nd hy hxc hx
        rcases hpar with hnone | hemp | ⟨p, hp, hpne, hNNp⟩
        · rw [hpar'] at hnone
          cases hnone
        · rw [hpar'] at hemp
          injection hemp with he
          subst he
          rw [hempty] at hy
          cases hy
        · rw [hpar'] at hp
          injection hp with he
          subst he
          rw [hNN2, if_neg hyds, hy] at hNNp
          cases hNNp
    · rw [hm2] at hy
      have hpds : p ∉ ds2 := by
        intro hin
        rw [hNN2, if_pos hin] at hNNp
        cases hNNp
      have hpl : mlookup nodes p = some pnd := by
        rw [hNN2, if_neg hpds] at hNNp
        exact hNNp
      by_cases hxpc : x ∈ pnd.children
      · rw [if_pos hxpc] at hy
        have hynx : y ≠ x := by
          intro he
          subst he
          rw [mlookup_merase_self] at hy
          cases hy
        rw [mlookup_merase_ne _ _ _ (Ne.symm hynx)] at hy
        by_cases hyp : y = p
        · subst hyp
          rw [mlookup_minsert_self] at hy
          injection hy with he
          subst he
          have hnodup : pnd.children.Nodup := children_nodup_spec hcn _ pnd hpl
          have hxc' : x ∈ pnd.children.erase x := hxc
          exact ((List.Nodup.mem_erase_iff hnodup).mp hxc').1 rfl
        · have hpny : p ≠ y := fun he => hyp he.symm
          rw [mlookup_minsert_ne _ _ _ _ hpny, hNN2] at hy
          by_cases hyds : y ∈ ds2
          · rw [if_pos hyds] at hy
            cases hy
          · rw [if_neg hyds] at hy
            have hpar' := parent_coherent_spec hpc y ndy x nd hy hxc hx
            rw [hpid] at hpar'
            injection hpar' with he
            exact hyp he.symm
      · rw [if_neg hxpc] at hy
        have hynx : y ≠ x := by
          intro he
          subst he
          rw [mlookup_merase_self] at hy
          cases hy
        rw [mlookup_merase_ne _ _ _ (Ne.symm hynx), hNN2] at hy
        by_cases hyds : y ∈ ds2
        · rw [if_pos hyds] at hy
          cases hy
        · rw [if_neg hyds] at hy
          have hpar' := parent_coherent_spec hpc y ndy x nd hy hxc hx
          rw [hpid] at hpar'
          injection hpar' with he
          subst he
          rw [hpl] at hy
          injection hy with he2
          subst he2
          exact hxpc hxc
  have hparent : ∀ p pnd0, nd.parent_id = some p → p ≠ "" → p ≠ x →
      ¬ DescFrom nodes x p → mlookup nodes p = some pnd0 →
      ∃ pnd', mlookup m2 p = some pnd' ∧ pnd'.children = pnd0.children.erase x := by
    intro p pnd0 hpid0 hpne0 hpx hnd hpl0
    have hpds : p ∉ ds2 := fun hin => hnd ((hmem2 p).mp hin)
    rcases hcases with ⟨hpar, hm2⟩ | ⟨p1, pnd, hpid1, hpne1, hNNp, hm2⟩
    · rcases hpar with hnone | hemp | ⟨p2, hp2, hpne2, hNNp2⟩
      · rw [hpid0] at hnone
        cases hnone
      · rw [hpid0] at hemp
        injection hemp with he
        exact absurd he hpne0
      · rw [hpid0] at hp2
        injection hp2 with he
        subst he
        rw [hNN2, if_neg hpds, hpl0] at hNNp2
        cases hNNp2
    · rw [hpid0] at hpid1
      injection hpid1 with he
      subst he
      have hpeq : pnd = pnd0 := by
        rw [hNN2, if_neg hpds, hpl0] at hNNp
        injection hNNp with he2
        exact he2.symm
      subst hpeq
      by_cases hxpc : x ∈ pnd.children
      · rw [hm2, if_pos hxpc]
        refine ⟨{ pnd with children := pnd.children.erase x }, ?_, rfl⟩
        rw [mlookup_merase_ne _ _ _ (Ne.symm hpx)]
        exact mlookup_minsert_self _ _ _
      · rw [hm2, if_neg hxpc]
        refine ⟨pnd, ?_, (List.erase_of_not_mem hxpc).symm⟩
        rw [mlookup_merase_ne _ _ _ (Ne.symm hpx), hNN2, if_neg hpds]
        exact hpl0
  have href2 : ∀ y ndy c, mlookup m2 y = some ndy → c ∈ ndy.children →
      (mlookup nodes c).isSome = true → (mlookup m2 c).isSome = true := by
    intro y ndy c hy hc hcp
    by_cases hcx : c = x
    · subst hcx
      exact absurd hc (hnoX y ndy hy)
    rcases hcases with ⟨hpar, hm2⟩ | ⟨p, pnd, hpid, hpne, hNNp, hm2⟩
    · rw [hm2] at hy
      have hynx : y ≠ x := by
        intro he
        subst he
        rw [mlookup_merase_self] at hy
        cases hy
      rw [mlookup_merase_ne _ _ _ (Ne.symm hynx), hNN2] at hy
      by_cases hyds : y ∈ ds2
      · rw [if_pos hyds] at hy
        cases hy
      · rw [if_neg hyds] at hy
        have hcds : c ∉ ds2 := no_desc_ref hpc hmem2 hynx hyds hy hc hcp
        rw [hm2, mlookup_merase_ne _ _ _ (Ne.symm hcx), hNN2, if_neg hcds]
        exact hcp
    · have hpds : p ∉ ds2 := by
        intro hin
        rw [hNN2, if_pos hin] at hNNp
        cases hNNp
      have hpl : mlookup nodes p = some pnd := by
        rw [hNN2, if_neg hpds] at hNNp
        exact hNNp
      rw [hm2] at hy
      by_cases hxpc : x ∈ pnd.children
      · rw [if_pos hxpc] at hy
        have hynx : y ≠ x := by
          intro he
          subst he
          rw [mlookup_merase_self] at hy
          cases hy
        rw [mlookup_merase_ne _ _ _ (Ne.symm hynx)] at hy
        have hpx : p ≠ x := by
          intro he
          subst he
          rw [hx] at hpl
          injection hpl with he2
          subst he2
          exact hxn2 ((hmem2 p).mpr ⟨p, nd, RA.refl nd hx (List.not_mem_nil p), hx, hxpc⟩)
        have hcds : c ∉ ds2 := by
          by_cases hyp : y = p
          · subst hyp
            rw [mlookup_minsert_self] at hy
            injection hy with he
            subst he
            have hc0 : c ∈ pnd.children.erase x := hc
            exact no_desc_ref hpc hmem2 hpx hpds hpl (List.mem_of_mem_erase hc0) hcp
          · have hpny : p ≠ y := fun he => hyp he.symm
            rw [mlookup_minsert_ne _ _ _ _ hpny, hNN2] at hy
            by_cases hyds : y ∈ ds2
            · rw [if_pos hyds] at hy
              cases hy
            · rw [if_neg hyds] at hy
              exact no_desc_ref hpc hmem2 hynx hyds hy hc hcp
        rw [hm2, if_pos hxpc, mlookup_merase_ne _ _ _ (Ne.symm hcx)]
        by_cases hcpeq : c = p
        · subst hcpeq
          rw [mlookup_minsert_self]
          rfl
        · have hpnc : p ≠ c := fun he => hcpeq he.symm
          rw [mlookup_minsert_ne _ _ _ _ hpnc, hNN2, if_neg hcds]
          exact hcp
      · rw [if_neg hxpc] at hy
        have hynx : y ≠ x := by
          intro he
          subst he
          rw [mlookup_merase_self] at hy
          cases hy
        rw [mlookup_merase_ne _ _ _ (Ne.symm hynx), hNN2] at hy
        by_cases hyds : y ∈ ds2
        · rw [if_pos hyds] at hy
          cases hy
        · rw [if_neg hyds] at hy
          have hcds : c ∉ ds2 := no_desc_ref hpc hmem2 hynx hyds hy hc hcp
          rw [hm2, if_neg hxpc, mlookup_merase_ne _ _ _ (Ne.symm hcx), hNN2, if_neg hcds]
          exact hcp
  refine ⟨?_, ?_, ?_, ?_, ?_, hnoX, hparent, href2⟩
  · rw [hm1]
    exact mlookup_minsert_self _ _ _
  · intro y hd hne
    rw [hm1, mlookup_minsert_ne _ _ _ _ (Ne.symm hne), hNN, if_pos ((hmem y).mpr hd)]
  · intro y ndy c hy hc hcp
    rw [hm1] at hy
    by_cases hyx : y = x
    · subst hyx
      rw [mlookup_minsert_self] at hy
      injection hy with he
      subst he
      simp at hc
    · rw [mlookup_minsert_ne _ _ _ _ (Ne.symm hyx), hNN] at hy
      by_cases hyds : y ∈ ds
      · rw [if_pos hyds] at hy
        cases hy
      · rw [if_neg hyds] at hy
        by_cases hcx : c = x
        · subst hcx
          rw [hm1, mlookup_minsert_self]
          rfl
        · have hcds : c ∉ ds := no_desc_ref hpc hmem hyx hyds hy hc hcp
          rw [hm1, mlookup_minsert_ne _ _ _ _ (Ne.symm hcx), hNN, if_neg hcds]
          exact hcp
  · rcases hcases with ⟨_, hm2⟩ | ⟨p, pnd, _, _, _, hm2⟩ <;> rw [hm2] <;>
      exact mlookup_merase_self _ _
  · intro y hd
    by_cases hyx : y = x
    · subst hyx
      exact absurd hd (collect_no_self hcol2)
    · have hyds : y ∈ ds2 := (hmem2 y).mpr hd
      rcases hcases with ⟨_, hm2⟩ | ⟨p, pnd, hpid, hpne, hNNp, hm2⟩
      · rw [hm2, mlookup_merase_ne _ _ _ (Ne.symm hyx), hNN2, if_pos hyds]
      · have hpds : p ∉ ds2 := by
          intro hin
          rw [hNN2, if_pos hin] at hNNp
          cases hNNp
        rw [hm2]
        by_cases hxpc : x ∈ pnd.children
        · have hpny : p ≠ y := by
            intro he
            rw [he] at hpds
            exact hpds hyds
          rw [if_pos hxpc, mlookup_merase_ne _ _ _ (Ne.symm hyx),
            mlookup_minsert_ne _ _ _ _ hpny, hNN2, if_pos hyds]
        · rw [if_neg hxpc, mlookup_merase_ne _ _ _ (Ne.symm hyx), hNN2, if_pos hyds]

/-- The store left by `remove_subtree(c4Nodes, "b", preserve_root=True)`. -/
def c4M1 : NMap := (remove_subtree c4Nodes "b" true 10).getD []

/-- The store left by `remove_subtree(c4Nodes, "b", preserve_root=False)`. -/
def c4M2 : NMap := (remove_subtree c4Nodes "b" false 10).getD []

/-- C4, witness: deleting the subtree of `b` (parent `a`, child `c`) in
the three-node chain `c4Nodes`, in both `preserve_root` modes. -/
theorem c4_cascade_delete_spec_witness :
    mlookup c4Nodes "b" = some c3NodeB ∧
    parent_coherent c4Nodes = true ∧
    children_nodup c4Nodes = true ∧
    mlookup c4Nodes "" = none ∧
    (mlookup c4M1 "b" = some { c3NodeB with children := ([] : List String) } ∧
     (∀ y, DescFrom c4Nodes "b" y → y ≠ "b" → mlookup c4M1 y = none) ∧
     (∀ y ndy c, mlookup c4M1 y = some ndy → c ∈ ndy.children →
       (mlookup c4Nodes c).isSome = true → (mlookup c4M1 c).isSome = true) ∧
     mlookup c4M2 "b" = none ∧
     (∀ y, DescFrom c4Nodes "b" y → mlookup c4M2 y = none) ∧
     (∀ y ndy, mlookup c4M2 y = some ndy → "b" ∉ ndy.children) ∧
     (∀ p pnd0, c3NodeB.parent_id = some p → p ≠ "" → p ≠ "b" →
       ¬ DescFrom c4Nodes "b" p → mlookup c4Nodes p = some pnd0 →
       ∃ pnd', mlookup c4M2 p = some pnd' ∧
         pnd'.children = pnd0.children.erase "b") ∧
     (∀ y ndy c, mlookup c4M2 y = some ndy → c ∈ ndy.children →
       (mlookup c4Nodes c).isSome = true → (mlookup c4M2 c).isSome = true)) :=
  ⟨by decide, by decide, by decide, by decide,
   c4_cascade_delete_spec c4Nodes "b" c3NodeB 10 10 c4M1 c4M2
     (by decide) (by decide) (by decide) (by decide) (by rfl) (by rfl)⟩

end App
